import Mathlib

/-!
# A verification of the `rust-lru` LRU cache (`src/lib.rs`)

The Rust source implements a fixed-capacity LRU cache as a `HashMap` from keys
to raw pointers into an intrusive doubly-linked recency list, with manual
`Box` allocation and deallocation of the list nodes.

Shallow embedding used here:

* Heap addresses are natural numbers.  The Rust allocator is modelled by a
  `nextAddr` counter (each `Box::new` yields a fresh address) together with an
  association list `heap : List (Nat × Entry K V)` holding the live nodes and a
  `freed : List Nat` journal recording every address passed to `drop`
  (`Box::from_raw`).  This lets us state the storage-release claims exactly.
* Raw pointers `*mut Entry` become `Option Nat` (`null` is `none`).
* The `HashMap<K, NonNull<Entry>>` becomes an association list
  `cache : List (K × Nat)`; `HashMap::insert` returns the previous binding,
  as in Rust.
* Every pointer dereference in the source goes through `hget`; an operation
  whose dereference misses (which in Rust would be undefined behaviour)
  returns `none`.  All public operations therefore have type `… → Option _`,
  and part of the verification shows they return `some _` on every reachable
  cache state.
-/

set_option maxHeartbeats 1000000

namespace LRU

/-- The `Entry<K, V>` struct of the source: key, value and the two intrusive
recency-list links (`next` towards the LRU end, `prev` towards the MRU end). -/
structure Entry (K V : Type) where
  key : K
  value : V
  next : Option Nat
  prev : Option Nat
deriving DecidableEq, Repr

/-- The `LruCache<K, V>` struct, extended with the allocator model:
`heap` holds the live heap nodes, `nextAddr` is the allocation counter and
`freed` journals every released address. -/
structure LruCache (K V : Type) where
  capacity : Nat
  cache : List (K × Nat)
  head : Option Nat
  tail : Option Nat
  heap : List (Nat × Entry K V)
  nextAddr : Nat
  freed : List Nat
deriving DecidableEq, Repr

variable {K V : Type}

/-- Heap read: dereference address `a` (the first binding wins; well-formed
heaps have distinct addresses). -/
def hget : List (Nat × Entry K V) → Nat → Option (Entry K V)
  | [], _ => none
  | (b, e) :: t, a => if a = b then some e else hget t a

/-- Heap write at an existing address (no-op when `a` is not allocated;
callers only use it behind a successful `hget`). -/
def hset : List (Nat × Entry K V) → Nat → Entry K V → List (Nat × Entry K V)
  | [], _, _ => []
  | (b, f) :: t, a, e => if a = b then (a, e) :: t else (b, f) :: hset t a e

/-- Deallocate address `a` (remove its binding from the heap). -/
def hdel : List (Nat × Entry K V) → Nat → List (Nat × Entry K V)
  | [], _ => []
  | (b, f) :: t, a => if a = b then t else (b, f) :: hdel t a

/-- `(*p).next = n`, failing (as UB would) when `p` is not live. -/
def setNext (h : List (Nat × Entry K V)) (a : Nat) (n : Option Nat) :
    Option (List (Nat × Entry K V)) :=
  (hget h a).map fun e => hset h a { e with next := n }

/-- `(*p).prev = n`, failing (as UB would) when `p` is not live. -/
def setPrev (h : List (Nat × Entry K V)) (a : Nat) (n : Option Nat) :
    Option (List (Nat × Entry K V)) :=
  (hget h a).map fun e => hset h a { e with prev := n }

/-- `HashMap::get`: lookup of a key in the index. -/
def mget [DecidableEq K] : List (K × Nat) → K → Option Nat
  | [], _ => none
  | (k2, a) :: t, k => if k = k2 then some a else mget t k

/-- `HashMap::insert`: store a binding, returning the previous one (if any). -/
def minsert [DecidableEq K] : List (K × Nat) → K → Nat → Option Nat × List (K × Nat)
  | [], k, a => (none, [(k, a)])
  | (k2, b) :: t, k, a =>
    if k = k2 then (some b, (k, a) :: t)
    else
      let r := minsert t k a
      (r.1, (k2, b) :: r.2)

/-- `HashMap::remove`: delete a binding, returning it (if present). -/
def mremove [DecidableEq K] : List (K × Nat) → K → Option Nat × List (K × Nat)
  | [], _ => (none, [])
  | (k2, b) :: t, k =>
    if k = k2 then (some b, t)
    else
      let r := mremove t k
      (r.1, (k2, b) :: r.2)

namespace LruCache

/-- `LruCache::new(capacity)`. -/
def new (K V : Type) (capacity : Nat) : LruCache K V :=
  { capacity := capacity
    cache := []
    head := none
    tail := none
    heap := []
    nextAddr := 0
    freed := [] }

/-- `LruCache::len`. -/
def len (c : LruCache K V) : Nat :=
  c.cache.length

/-- `LruCache::remove_entry`: unlink the node at address `a` from the
doubly-linked recency list (fixing the neighbours or `head`/`tail`). -/
def remove_entry (c : LruCache K V) (a : Nat) : Option (LruCache K V) := do
  let e ← hget c.heap a
  let c1 ←
    match e.prev with
    | some p => do
      let h ← setNext c.heap p e.next
      pure { c with heap := h }
    | none => pure { c with head := e.next }
  match e.next with
  | some n => do
    let h ← setPrev c1.heap n e.prev
    pure { c1 with heap := h }
  | none => pure { c1 with tail := e.prev }

/-- `LruCache::push_entry_front`: link the node at address `a` in at the
front (MRU end) of the recency list. -/
def push_entry_front (c : LruCache K V) (a : Nat) : Option (LruCache K V) := do
  let e ← hget c.heap a
  let h1 := hset c.heap a { e with next := c.head, prev := none }
  match c.head with
  | some hd => do
    let h2 ← setPrev h1 hd (some a)
    pure { c with heap := h2, head := some a }
  | none => pure { c with heap := h1, head := some a, tail := some a }

/-- `LruCache::get_free_entry`: `Box::into_raw(Box::new(Entry { … }))` —
allocate a fresh node with null links; returns the fresh address. -/
def get_free_entry (c : LruCache K V) (key : K) (value : V) :
    Nat × LruCache K V :=
  (c.nextAddr,
    { c with
      heap := c.heap ++ [(c.nextAddr, ⟨key, value, none, none⟩)]
      nextAddr := c.nextAddr + 1 })

/-- `LruCache::free_entry`: `drop(Box::from_raw(…))` — release the node at
address `a`; the address is journalled in `freed`.  Fails (UB: double free)
when `a` is not live. -/
def free_entry (c : LruCache K V) (a : Nat) : Option (LruCache K V) :=
  (hget c.heap a).map fun _ =>
    { c with heap := hdel c.heap a, freed := c.freed ++ [a] }

/-- `LruCache::get`: on a hit, move the node to the front of the recency list
and return (a reference to) its value; on a miss return `none` and leave the
cache untouched. -/
def get [DecidableEq K] (c : LruCache K V) (k : K) :
    Option (LruCache K V × Option V) :=
  match mget c.cache k with
  | some a => do
    let c1 ← c.remove_entry a
    let c2 ← c1.push_entry_front a
    let e ← hget c2.heap a
    pure (c2, some e.value)
  | none => some (c, none)

/-- `LruCache::insert`: allocate a fresh front node for `(key, value)`, update
the index; if the key was bound, unlink and free the superseded node;
otherwise, if the count now exceeds `capacity`, unlink the tail node, remove
its key from the index and free it. -/
def insert [DecidableEq K] (c : LruCache K V) (k : K) (v : V) :
    Option (LruCache K V) := do
  let r := c.get_free_entry k v
  let c1 ← r.2.push_entry_front r.1
  let ins := minsert c1.cache k r.1
  let c2 : LruCache K V := { c1 with cache := ins.2 }
  match ins.1 with
  | some old => do
    let c3 ← c2.remove_entry old
    c3.free_entry old
  | none =>
    if c2.cache.length > c2.capacity then
      match c2.tail with
      | some t => do
        let c3 ← c2.remove_entry t
        let e ← hget c3.heap t
        let c4 : LruCache K V := { c3 with cache := (mremove c3.cache e.key).2 }
        c4.free_entry t
      | none => pure c2
    else pure c2

/-- `LruCache::remove`: drop the binding for `k` from the index and, when it
existed, unlink and free its node.  A miss is a no-op. -/
def remove [DecidableEq K] (c : LruCache K V) (k : K) : Option (LruCache K V) :=
  match mremove c.cache k with
  | (some a, m) => do
    let c1 ← LruCache.remove_entry { c with cache := m } a
    c1.free_entry a
  | (none, _) => some c

end LruCache

/-- The traversal of `impl Drop for LruCache`: starting from `cur`, repeatedly
read `next` and free the current node.  Returns the list of freed addresses in
order; fails where the Rust loop would dereference a dead pointer. -/
def dropLoop (h : List (Nat × Entry K V)) (cur : Option Nat) :
    Nat → Option (List Nat)
  | 0 => match cur with | none => some [] | some _ => none
  | fuel + 1 =>
    match cur with
    | none => some []
    | some a =>
      match hget h a with
      | none => none
      | some e =>
        match dropLoop (hdel h a) e.next fuel with
        | none => none
        | some rest => some (a :: rest)

/-- `Drop::drop` for the whole cache: the addresses freed by walking the
recency list from `head` following `next` links. -/
def LruCache.dropFrees (c : LruCache K V) : Option (List Nat) :=
  dropLoop c.heap c.head c.heap.length

/-! ## Well-formedness of a cache state

`segb h p xs q` says that the addresses `xs` form a doubly-linked segment in
heap `h`: the first node's `prev` is `p`, consecutive nodes point at each
other in both directions, and the last node's `next` is `q`. -/

/-- The pointer to the first node of `xs`, or `q` if `xs` is empty. -/
def firstPtr (xs : List Nat) (q : Option Nat) : Option Nat :=
  match xs with
  | [] => q
  | a :: _ => some a

/-- The pointer to the last node of `xs`, or `p` if `xs` is empty. -/
def lastPtr (p : Option Nat) : List Nat → Option Nat
  | [] => p
  | a :: xs => lastPtr (some a) xs

/-- `xs` is a well-linked doubly-linked segment of `h` between `p` and `q`. -/
def segb (h : List (Nat × Entry K V)) : Option Nat → List Nat → Option Nat → Bool
  | _, [], _ => true
  | p, a :: rest, q =>
    match hget h a with
    | none => false
    | some e =>
      decide (e.prev = p) && decide (e.next = firstPtr rest q) && segb h (some a) rest q

/-- Full well-formedness of a cache state, with `order` the recency list from
front (MRU) to back (LRU): the heap nodes linked from `head` to `tail` are
exactly `order`; the index and the list track exactly the same entries, with
matching keys; the count is bounded by the capacity; and every address ever
allocated is either live or journalled as freed, exactly once. -/
def Realizes [DecidableEq K] (c : LruCache K V) (order : List Nat) : Prop :=
  segb c.heap none order none = true ∧
  c.head = firstPtr order none ∧
  c.tail = lastPtr none order ∧
  (c.heap.map Prod.fst).Perm order ∧
  (∀ p ∈ c.cache, (hget c.heap p.2).map Entry.key = some p.1) ∧
  (∀ a ∈ order, (hget c.heap a).bind (fun e => mget c.cache e.key) = some a) ∧
  c.cache.length ≤ c.capacity ∧
  (c.freed ++ c.heap.map Prod.fst).Perm (List.range c.nextAddr) ∧
  (c.cache.map Prod.fst).Nodup ∧
  c.cache.length = order.length

/-- A cache state is well-formed when some recency order realizes it. -/
def WF [DecidableEq K] (c : LruCache K V) : Prop :=
  ∃ order, Realizes c order

/-- The abstract content of the cache: the key/value pairs in recency order
(most recently used first). -/
def absOf (c : LruCache K V) (order : List Nat) : List (K × V) :=
  order.filterMap fun a => (hget c.heap a).map fun e => (e.key, e.value)

/-! ## Association-list lemmas for the heap -/

theorem hget_eq_none_iff {h : List (Nat × Entry K V)} {a : Nat} :
    hget h a = none ↔ a ∉ h.map Prod.fst := by
  induction h with
  | nil => simp [hget]
  | cons p t ih =>
    obtain ⟨b, f⟩ := p
    by_cases hab : a = b
    · subst hab; simp [hget]
    · simp [hget, hab, ih]

theorem hget_isSome_iff {h : List (Nat × Entry K V)} {a : Nat} :
    (hget h a).isSome ↔ a ∈ h.map Prod.fst := by
  rw [Option.isSome_iff_ne_none, Ne, hget_eq_none_iff, not_not]

theorem hget_hset_self {h : List (Nat × Entry K V)} {a : Nat} {e0 e : Entry K V}
    (hh : hget h a = some e0) : hget (hset h a e) a = some e := by
  induction h with
  | nil => simp [hget] at hh
  | cons p t ih =>
    obtain ⟨b, f⟩ := p
    by_cases hab : a = b
    · subst hab; simp [hget, hset]
    · simp [hget, hset, hab] at hh ⊢
      exact ih hh

theorem hget_hset_ne {h : List (Nat × Entry K V)} {a b : Nat} {e : Entry K V}
    (hne : b ≠ a) : hget (hset h a e) b = hget h b := by
  induction h with
  | nil => simp [hset]
  | cons p t ih =>
    obtain ⟨c, f⟩ := p
    by_cases hac : a = c
    · subst hac; simp [hget, hset, hne]
    · simp [hget, hset, hac]
      by_cases hbc : b = c
      · simp [hbc]
      · simp [hbc, ih]

theorem keys_hset {h : List (Nat × Entry K V)} {a : Nat} {e : Entry K V} :
    (hset h a e).map Prod.fst = h.map Prod.fst := by
  induction h with
  | nil => simp [hset]
  | cons p t ih =>
    obtain ⟨b, f⟩ := p
    by_cases hab : a = b
    · subst hab; simp [hset]
    · simp [hset, hab, ih]

theorem hget_hdel_ne {h : List (Nat × Entry K V)} {a b : Nat}
    (hne : b ≠ a) : hget (hdel h a) b = hget h b := by
  induction h with
  | nil => simp [hdel]
  | cons p t ih =>
    obtain ⟨c, f⟩ := p
    by_cases hac : a = c
    · subst hac; simp [hget, hdel, hne]
    · simp [hget, hdel, hac]
      by_cases hbc : b = c
      · simp [hbc]
      · simp [hbc, ih]

theorem keys_hdel {h : List (Nat × Entry K V)} {a : Nat} :
    (hdel h a).map Prod.fst = (h.map Prod.fst).erase a := by
  induction h with
  | nil => simp [hdel]
  | cons p t ih =>
    obtain ⟨b, f⟩ := p
    by_cases hab : a = b
    · subst hab; simp [hdel, List.erase_cons]
    · simp [hdel, hab, List.erase_cons, Ne.symm hab, ih]

theorem hget_hdel_self {h : List (Nat × Entry K V)} {a : Nat}
    (hnd : (h.map Prod.fst).Nodup) : hget (hdel h a) a = none := by
  induction h with
  | nil => simp [hdel, hget]
  | cons p t ih =>
    obtain ⟨b, f⟩ := p
    simp only [List.map_cons, List.nodup_cons] at hnd
    by_cases hab : a = b
    · subst hab; simp [hdel, hget_eq_none_iff, hnd.1]
    · simp [hdel, hget, hab, ih hnd.2]

theorem hget_append_left {h l : List (Nat × Entry K V)} {a : Nat} {e : Entry K V}
    (hh : hget h a = some e) : hget (h ++ l) a = some e := by
  induction h with
  | nil => simp [hget] at hh
  | cons p t ih =>
    obtain ⟨b, f⟩ := p
    by_cases hab : a = b
    · subst hab; simp [hget] at hh ⊢; exact hh
    · simp [hget, hab] at hh ⊢; exact ih hh

theorem hget_append_right {h l : List (Nat × Entry K V)} {a : Nat}
    (hh : hget h a = none) : hget (h ++ l) a = hget l a := by
  induction h with
  | nil => simp
  | cons p t ih =>
    obtain ⟨b, f⟩ := p
    by_cases hab : a = b
    · subst hab; simp [hget] at hh
    · simp [hget, hab] at hh ⊢; exact ih hh

/-! ## Association-list lemmas for the index -/

section MapLemmas

variable [DecidableEq K]

theorem mget_eq_none_iff {m : List (K × Nat)} {k : K} :
    mget m k = none ↔ k ∉ m.map Prod.fst := by
  induction m with
  | nil => simp [mget]
  | cons p t ih =>
    obtain ⟨k2, a⟩ := p
    by_cases hk : k = k2
    · subst hk; simp [mget]
    · simp [mget, hk, ih]

theorem mget_mem {m : List (K × Nat)} {k : K} {a : Nat}
    (hm : mget m k = some a) : (k, a) ∈ m := by
  induction m with
  | nil => simp [mget] at hm
  | cons p t ih =>
    obtain ⟨k2, b⟩ := p
    by_cases hk : k = k2
    · subst hk; simp [mget] at hm; simp [hm]
    · simp [mget, hk] at hm
      exact List.mem_cons_of_mem _ (ih hm)

theorem mem_mget {m : List (K × Nat)} {k : K} {a : Nat}
    (hnd : (m.map Prod.fst).Nodup) (hm : (k, a) ∈ m) : mget m k = some a := by
  induction m with
  | nil => simp at hm
  | cons p t ih =>
    obtain ⟨k2, b⟩ := p
    simp only [List.map_cons, List.nodup_cons] at hnd
    rcases List.mem_cons.mp hm with h | h
    · obtain ⟨h1, h2⟩ := Prod.mk.injEq .. ▸ h
      subst h1; subst h2; simp [mget]
    · by_cases hk : k = k2
      · subst hk
        exact absurd (List.mem_map.mpr ⟨(k, a), h, rfl⟩) hnd.1
      · simp [mget, hk]; exact ih hnd.2 h

theorem minsert_fst {m : List (K × Nat)} {k : K} {a : Nat} :
    (minsert m k a).1 = mget m k := by
  induction m with
  | nil => simp [minsert, mget]
  | cons p t ih =>
    obtain ⟨k2, b⟩ := p
    by_cases hk : k = k2
    · subst hk; simp [minsert, mget]
    · simp [minsert, mget, hk, ih]

theorem mget_minsert {m : List (K × Nat)} {k j : K} {a : Nat} :
    mget (minsert m k a).2 j = if j = k then some a else mget m j := by
  induction m with
  | nil =>
    by_cases hk : j = k
    · subst hk; simp [minsert, mget]
    · simp [minsert, mget, hk]
  | cons p t ih =>
    obtain ⟨k3, b⟩ := p
    by_cases hk3 : k = k3
    · subst hk3
      by_cases hk : j = k
      · subst hk; simp [minsert, mget]
      · simp [minsert, mget, hk]
    · by_cases hk : j = k3
      · subst hk
        have hne : ¬ j = k := fun h => hk3 h.symm
        simp [minsert, hk3, mget, hne]
      · simp [minsert, mget, hk3, hk, ih]

theorem minsert_absent {m : List (K × Nat)} {k : K} {a : Nat}
    (hm : mget m k = none) : (minsert m k a).2 = m ++ [(k, a)] := by
  induction m with
  | nil => simp [minsert]
  | cons p t ih =>
    obtain ⟨k2, b⟩ := p
    by_cases hk : k = k2
    · subst hk; simp [mget] at hm
    · simp [mget, hk] at hm
      simp [minsert, hk, ih hm]

theorem minsert_keys_present {m : List (K × Nat)} {k : K} {a b : Nat}
    (hm : mget m k = some b) :
    (minsert m k a).2.map Prod.fst = m.map Prod.fst := by
  induction m with
  | nil => simp [mget] at hm
  | cons p t ih =>
    obtain ⟨k2, c⟩ := p
    by_cases hk : k = k2
    · subst hk; simp [minsert]
    · simp [mget, hk] at hm
      simp [minsert, hk, ih hm]

theorem minsert_mem {m : List (K × Nat)} {k : K} {a : Nat} {p : K × Nat}
    (hnd : (m.map Prod.fst).Nodup) :
    p ∈ (minsert m k a).2 ↔ p = (k, a) ∨ (p ∈ m ∧ p.1 ≠ k) := by
  induction m with
  | nil => simp [minsert]
  | cons q t ih =>
    obtain ⟨k2, b⟩ := q
    simp only [List.map_cons, List.nodup_cons] at hnd
    by_cases hk : k = k2
    · subst hk
      constructor
      · intro hp
        simp only [minsert, if_pos rfl] at hp
        rcases List.mem_cons.mp hp with h | h
        · exact Or.inl h
        · refine Or.inr ⟨List.mem_cons_of_mem _ h, ?_⟩
          intro hpk
          exact hnd.1 (List.mem_map.mpr ⟨p, h, hpk⟩)
      · intro hp
        simp only [minsert, if_pos rfl]
        rcases hp with h | ⟨h, hne⟩
        · subst h; exact List.mem_cons_self _ _
        · rcases List.mem_cons.mp h with h2 | h2
          · exact absurd (by simp [h2]) hne
          · exact List.mem_cons_of_mem _ h2
    · simp only [minsert, if_neg hk]
      constructor
      · intro hp
        rcases List.mem_cons.mp hp with h | h
        · subst h
          refine Or.inr ⟨List.mem_cons_self _ _, ?_⟩
          simpa using Ne.symm hk
        · rcases (ih hnd.2).mp h with h2 | h2
          · exact Or.inl h2
          · exact Or.inr ⟨List.mem_cons_of_mem _ h2.1, h2.2⟩
      · intro hp
        rcases hp with h | ⟨h, hne⟩
        · exact List.mem_cons_of_mem _ ((ih hnd.2).mpr (Or.inl h))
        · rcases List.mem_cons.mp h with h2 | h2
          · subst h2; exact List.mem_cons_self _ _
          · exact List.mem_cons_of_mem _ ((ih hnd.2).mpr (Or.inr ⟨h2, hne⟩))

theorem minsert_nodup {m : List (K × Nat)} {k : K} {a : Nat}
    (hnd : (m.map Prod.fst).Nodup) :
    ((minsert m k a).2.map Prod.fst).Nodup := by
  rcases hm : mget m k with _ | b
  · rw [minsert_absent hm]
    simp only [List.map_append, List.map_cons, List.map_nil]
    rw [List.nodup_append]
    refine ⟨hnd, List.nodup_singleton _, ?_⟩
    intro x hx
    simp only [List.mem_singleton]
    intro hxk
    subst hxk
    exact (mget_eq_none_iff.mp hm) hx
  · rwa [minsert_keys_present hm]

theorem minsert_len_present {m : List (K × Nat)} {k : K} {a b : Nat}
    (hm : mget m k = some b) :
    (minsert m k a).2.length = m.length := by
  have := minsert_keys_present (a := a) hm
  have h1 : (minsert m k a).2.length = ((minsert m k a).2.map Prod.fst).length :=
    (List.length_map _ _).symm
  rw [h1, this, List.length_map]

theorem mremove_fst {m : List (K × Nat)} {k : K} :
    (mremove m k).1 = mget m k := by
  induction m with
  | nil => simp [mremove, mget]
  | cons p t ih =>
    obtain ⟨k2, b⟩ := p
    by_cases hk : k = k2
    · subst hk; simp [mremove, mget]
    · simp [mremove, mget, hk, ih]

theorem mremove_absent {m : List (K × Nat)} {k : K}
    (hm : mget m k = none) : mremove m k = (none, m) := by
  induction m with
  | nil => simp [mremove]
  | cons p t ih =>
    obtain ⟨k2, b⟩ := p
    by_cases hk : k = k2
    · subst hk; simp [mget] at hm
    · simp [mget, hk] at hm
      simp [mremove, hk, ih hm]

theorem mget_mremove {m : List (K × Nat)} {k j : K}
    (hnd : (m.map Prod.fst).Nodup) :
    mget (mremove m k).2 j = if j = k then none else mget m j := by
  induction m with
  | nil => simp [mremove, mget]
  | cons p t ih =>
    obtain ⟨k3, b⟩ := p
    simp only [List.map_cons, List.nodup_cons] at hnd
    by_cases hk3 : k = k3
    · subst hk3
      by_cases hk : j = k
      · subst hk
        simp [mremove, mget_eq_none_iff, hnd.1]
      · simp [mremove, mget, hk]
    · by_cases hk : j = k3
      · subst hk
        simp [mremove, hk3, mget, ih hnd.2]
        intro h; subst h; exact absurd rfl hk3
      · simp [mremove, mget, hk3, hk, ih hnd.2]

theorem mremove_mem {m : List (K × Nat)} {k : K} {p : K × Nat}
    (hnd : (m.map Prod.fst).Nodup) :
    p ∈ (mremove m k).2 ↔ p ∈ m ∧ p.1 ≠ k := by
  induction m with
  | nil => simp [mremove]
  | cons q t ih =>
    obtain ⟨k2, b⟩ := q
    simp only [List.map_cons, List.nodup_cons] at hnd
    by_cases hk : k = k2
    · subst hk
      simp only [mremove, if_pos rfl]
      constructor
      · intro hp
        refine ⟨List.mem_cons_of_mem _ hp, ?_⟩
        intro hpk
        exact hnd.1 (List.mem_map.mpr ⟨p, hp, hpk⟩)
      · rintro ⟨hp, hne⟩
        rcases List.mem_cons.mp hp with h | h
        · exact absurd (by simp [h]) hne
        · exact h
    · simp only [mremove, if_neg hk]
      constructor
      · intro hp
        rcases List.mem_cons.mp hp with h | h
        · subst h
          exact ⟨List.mem_cons_self _ _, by simpa using Ne.symm hk⟩
        · exact ⟨List.mem_cons_of_mem _ ((ih hnd.2).mp h).1, ((ih hnd.2).mp h).2⟩
      · rintro ⟨hp, hne⟩
        rcases List.mem_cons.mp hp with h | h
        · subst h; exact List.mem_cons_self _ _
        · exact List.mem_cons_of_mem _ ((ih hnd.2).mpr ⟨h, hne⟩)

theorem mremove_len_present {m : List (K × Nat)} {k : K} {a : Nat}
    (hm : mget m k = some a) :
    (mremove m k).2.length + 1 = m.length := by
  induction m with
  | nil => simp [mget] at hm
  | cons p t ih =>
    obtain ⟨k2, b⟩ := p
    by_cases hk : k = k2
    · subst hk; simp [mremove]
    · simp [mget, hk] at hm
      simp [mremove, hk, ih hm]

theorem mremove_nodup {m : List (K × Nat)} {k : K}
    (hnd : (m.map Prod.fst).Nodup) :
    ((mremove m k).2.map Prod.fst).Nodup := by
  induction m with
  | nil => simp [mremove]
  | cons p t ih =>
    obtain ⟨k2, b⟩ := p
    simp only [List.map_cons, List.nodup_cons] at hnd
    by_cases hk : k = k2
    · subst hk; simp [mremove, hnd.2]
    · simp only [mremove, if_neg hk, List.map_cons, List.nodup_cons]
      refine ⟨?_, ih hnd.2⟩
      intro hmem
      rcases List.mem_map.mp hmem with ⟨q, hq, hqk⟩
      exact hnd.1 (List.mem_map.mpr ⟨q, ((mremove_mem hnd.2).mp hq).1, hqk⟩)

end MapLemmas

/-! ## Segment lemmas for the doubly-linked recency list -/

@[simp]
theorem firstPtr_nil {q : Option Nat} : firstPtr [] q = q := rfl

@[simp]
theorem firstPtr_cons {a : Nat} {xs : List Nat} {q : Option Nat} :
    firstPtr (a :: xs) q = some a := rfl

theorem firstPtr_append {xs ys : List Nat} {q : Option Nat} :
    firstPtr (xs ++ ys) q = firstPtr xs (firstPtr ys q) := by
  cases xs <;> rfl

@[simp]
theorem lastPtr_nil {p : Option Nat} : lastPtr p [] = p := rfl

@[simp]
theorem lastPtr_cons {p : Option Nat} {a : Nat} {xs : List Nat} :
    lastPtr p (a :: xs) = lastPtr (some a) xs := rfl

theorem lastPtr_append {p : Option Nat} {xs ys : List Nat} :
    lastPtr p (xs ++ ys) = lastPtr (lastPtr p xs) ys := by
  induction xs generalizing p with
  | nil => rfl
  | cons a t ih => simp [ih]

theorem lastPtr_concat {p : Option Nat} {a : Nat} {xs : List Nat} :
    lastPtr p (xs ++ [a]) = some a := by
  rw [lastPtr_append]; rfl

theorem eq_concat_of_lastPtr {xs : List Nat} {t : Nat} :
    ∀ {p : Option Nat}, lastPtr p xs = some t →
      (xs = [] ∧ p = some t) ∨ ∃ xs1, xs = xs1 ++ [t] := by
  induction xs with
  | nil => intro p h; exact Or.inl ⟨rfl, h⟩
  | cons a rest ih =>
    intro p h
    rcases ih (p := some a) h with ⟨h1, h2⟩ | ⟨xs1, h1⟩
    · subst h1
      cases h2
      exact Or.inr ⟨[], rfl⟩
    · exact Or.inr ⟨a :: xs1, by simp [h1]⟩

theorem segb_congr {h h2 : List (Nat × Entry K V)} {p q : Option Nat} {xs : List Nat}
    (hagree : ∀ a ∈ xs, hget h2 a = hget h a) :
    segb h2 p xs q = segb h p xs q := by
  induction xs generalizing p with
  | nil => rfl
  | cons a rest ih =>
    simp only [segb]
    rw [hagree a (List.mem_cons_self _ _)]
    cases hget h a with
    | none => rfl
    | some e => rw [ih fun b hb => hagree b (List.mem_cons_of_mem _ hb)]

theorem segb_append {h : List (Nat × Entry K V)} {p q : Option Nat} {xs ys : List Nat} :
    segb h p (xs ++ ys) q =
      (segb h p xs (firstPtr ys q) && segb h (lastPtr p xs) ys q) := by
  induction xs generalizing p with
  | nil => simp [segb]
  | cons a rest ih =>
    simp only [List.cons_append, segb, firstPtr_append, lastPtr_cons]
    cases hget h a with
    | none => simp
    | some e =>
      dsimp only
      simp only [List.append_eq]
      rw [ih]
      simp [Bool.and_assoc, firstPtr_append]

theorem segb_cons {h : List (Nat × Entry K V)} {p q : Option Nat} {a : Nat}
    {rest : List Nat} :
    segb h p (a :: rest) q = true ↔
      ∃ e, hget h a = some e ∧ e.prev = p ∧ e.next = firstPtr rest q ∧
        segb h (some a) rest q = true := by
  simp only [segb]
  cases hh : hget h a with
  | none => simp
  | some e => simp [Bool.and_eq_true, decide_eq_true_eq, and_assoc]

theorem segb_isSome {h : List (Nat × Entry K V)} {p q : Option Nat} {xs : List Nat}
    (hs : segb h p xs q = true) {a : Nat} (ha : a ∈ xs) : (hget h a).isSome := by
  induction xs generalizing p with
  | nil => simp at ha
  | cons b rest ih =>
    rcases segb_cons.mp hs with ⟨e, he, _, _, hrest⟩
    rcases List.mem_cons.mp ha with h1 | h1
    · subst h1; simp [he]
    · exact ih hrest h1

theorem segb_mem_keys {h : List (Nat × Entry K V)} {p q : Option Nat} {xs : List Nat}
    (hs : segb h p xs q = true) {a : Nat} (ha : a ∈ xs) : a ∈ h.map Prod.fst :=
  hget_isSome_iff.mp (segb_isSome hs ha)

/-- The key/value view of a heap cell; unchanged by link surgery. -/
def kvOf (h : List (Nat × Entry K V)) (a : Nat) : Option (K × V) :=
  (hget h a).map fun e => (e.key, e.value)

theorem kvOf_hset_link {h : List (Nat × Entry K V)} {a : Nat} {e : Entry K V}
    (e2 : Entry K V)
    (he : hget h a = some e) (hk : e2.key = e.key) (hv : e2.value = e.value) :
    ∀ b, kvOf (hset h a e2) b = kvOf h b := by
  intro b
  by_cases hb : b = a
  · subst hb
    simp [kvOf, hget_hset_self he, he, hk, hv]
  · simp [kvOf, hget_hset_ne hb]

theorem segb_hset_notmem {h : List (Nat × Entry K V)} {x : Nat} {e : Entry K V}
    {p q : Option Nat} {xs : List Nat} (hx : x ∉ xs) :
    segb (hset h x e) p xs q = segb h p xs q :=
  segb_congr fun _b hb => hget_hset_ne fun hbx => hx (hbx ▸ hb)

theorem setNext_some {h : List (Nat × Entry K V)} {a : Nat} {e : Entry K V}
    (he : hget h a = some e) (n : Option Nat) :
    setNext h a n = some (hset h a { e with next := n }) := by
  simp [setNext, he]

theorem setPrev_some {h : List (Nat × Entry K V)} {a : Nat} {e : Entry K V}
    (he : hget h a = some e) (n : Option Nat) :
    setPrev h a n = some (hset h a { e with prev := n }) := by
  simp [setPrev, he]

theorem segb_retarget_last {h : List (Nat × Entry K V)} {p m n : Option Nat}
    {l1h : List Nat} {p0 : Nat} {ep0 : Entry K V}
    (hs : segb h p (l1h ++ [p0]) m = true)
    (hmem : p0 ∉ l1h)
    (he : hget h p0 = some ep0) :
    segb (hset h p0 { ep0 with next := n }) p (l1h ++ [p0]) n = true := by
  rw [segb_append] at hs
  simp only [Bool.and_eq_true] at hs
  obtain ⟨hs1, hs2⟩ := hs
  rcases segb_cons.mp hs2 with ⟨e, he2, hep, _, _⟩
  rw [he] at he2
  injection he2 with he2
  subst he2
  rw [segb_append]
  simp only [Bool.and_eq_true]
  refine ⟨?_, ?_⟩
  · rw [segb_hset_notmem hmem]
    simpa using hs1
  · apply segb_cons.mpr
    exact ⟨{ ep0 with next := n }, hget_hset_self he, hep, rfl, rfl⟩

theorem segb_retarget_first {h : List (Nat × Entry K V)} {p q w : Option Nat}
    {l2t : List Nat} {n0 : Nat} {en0 : Entry K V}
    (hs : segb h p (n0 :: l2t) q = true)
    (hmem : n0 ∉ l2t)
    (he : hget h n0 = some en0) :
    segb (hset h n0 { en0 with prev := w }) w (n0 :: l2t) q = true := by
  rcases segb_cons.mp hs with ⟨e, he2, _, hen, hrest⟩
  rw [he] at he2
  injection he2 with he2
  subst he2
  apply segb_cons.mpr
  refine ⟨{ en0 with prev := w }, hget_hset_self he, rfl, hen, ?_⟩
  rw [segb_hset_notmem hmem]
  exact hrest

/-- The parts of a cache state untouched by pure link surgery on the recency
list: everything except `head`, `tail` and the link fields of heap nodes. -/
def SameShape (c2 c : LruCache K V) : Prop :=
  c2.capacity = c.capacity ∧ c2.cache = c.cache ∧ c2.nextAddr = c.nextAddr ∧
  c2.freed = c.freed ∧ c2.heap.map Prod.fst = c.heap.map Prod.fst ∧
  ∀ b, kvOf c2.heap b = kvOf c.heap b

theorem SameShape.refl (c : LruCache K V) : SameShape c c :=
  ⟨rfl, rfl, rfl, rfl, rfl, fun _ => rfl⟩

theorem SameShape.trans {c3 c2 c : LruCache K V}
    (h1 : SameShape c3 c2) (h2 : SameShape c2 c) : SameShape c3 c := by
  obtain ⟨a1, a2, a3, a4, a5, a6⟩ := h1
  obtain ⟨b1, b2, b3, b4, b5, b6⟩ := h2
  exact ⟨a1.trans b1, a2.trans b2, a3.trans b3, a4.trans b4, a5.trans b5,
    fun b => (a6 b).trans (b6 b)⟩

/-! ## Specification of the link-surgery operations -/

/-- Unlinking the node at `a` from a well-linked recency list removes exactly
that node from the chain and touches nothing else. -/
theorem remove_entry_spec {c : LruCache K V} (l1 l2 : List Nat) {a : Nat}
    (hseg : segb c.heap none (l1 ++ a :: l2) none = true)
    (hhead : c.head = firstPtr (l1 ++ a :: l2) none)
    (htail : c.tail = lastPtr none (l1 ++ a :: l2))
    (hnd : (l1 ++ a :: l2).Nodup) :
    ∃ c2, c.remove_entry a = some c2 ∧
      segb c2.heap none (l1 ++ l2) none = true ∧
      c2.head = firstPtr (l1 ++ l2) none ∧
      c2.tail = lastPtr none (l1 ++ l2) ∧
      SameShape c2 c := by
  obtain ⟨hnd1, hnd2, hdisj⟩ := List.nodup_append.mp hnd
  have hal2 : a ∉ l2 := (List.nodup_cons.mp hnd2).1
  have hndl2 : l2.Nodup := (List.nodup_cons.mp hnd2).2
  have hal1 : a ∉ l1 := fun h => hdisj h (List.mem_cons_self _ _)
  rw [segb_append] at hseg
  simp only [Bool.and_eq_true] at hseg
  obtain ⟨hs1, hs2⟩ := hseg
  simp only [firstPtr_cons] at hs1
  rcases segb_cons.mp hs2 with ⟨e, he, hep, hen, hs3⟩
  rcases List.eq_nil_or_concat l1 with rfl | ⟨l1h, p0, hl1⟩
  · -- the removed node is at the front: `prev` is null, fix `head`
    have hep' : e.prev = none := by simpa using hep
    cases l2 with
    | nil =>
      -- also the last node: fix `tail` too
      have hen' : e.next = none := by simpa using hen
      refine ⟨{ c with head := none, tail := none }, ?_, rfl, rfl, rfl,
        rfl, rfl, rfl, rfl, rfl, fun _ => rfl⟩
      simp [LruCache.remove_entry, he, hep', hen']
    | cons n0 l2t =>
      have hen' : e.next = some n0 := by simpa using hen
      have hn0 : n0 ∉ l2t := (List.nodup_cons.mp hndl2).1
      rcases segb_cons.mp hs3 with ⟨en0, hen0, _, _, _⟩
      refine ⟨{ c with head := some n0, heap := hset c.heap n0 { en0 with prev := none } }, ?_, ?_, rfl, ?_, ?_⟩
      · simp [LruCache.remove_entry, he, hep', hen', setPrev_some hen0]
      · simpa using segb_retarget_first (w := none) hs3 hn0 hen0
      · rw [htail]
        simp
      · exact ⟨rfl, rfl, rfl, rfl, keys_hset, kvOf_hset_link _ hen0 rfl rfl⟩
  · -- a real predecessor `p0` exists: retarget its `next`
    rw [List.concat_eq_append] at hl1
    subst hl1
    have hp0mem : p0 ∈ l1h ++ [p0] := List.mem_append_right _ (List.mem_cons_self _ _)
    have hep' : e.prev = some p0 := by rw [hep, lastPtr_concat]
    have hp0l1h : p0 ∉ l1h := by
      rw [List.nodup_append] at hnd1
      exact fun h => hnd1.2.2 h (List.mem_cons_self _ _)
    have hp0a : p0 ≠ a := fun h => hal1 (h ▸ hp0mem)
    have hp0l2 : p0 ∉ l2 := fun h =>
      hdisj hp0mem (List.mem_cons_of_mem _ h)
    have hs1copy := hs1
    rw [segb_append] at hs1copy
    simp only [Bool.and_eq_true] at hs1copy
    obtain ⟨hs1a, hs1b⟩ := hs1copy
    rcases segb_cons.mp hs1b with ⟨ep0, hep0, hep0p, hep0n, _⟩
    cases l2 with
    | nil =>
      have hen' : e.next = none := by simpa using hen
      have hsetn := setNext_some hep0 (none : Option Nat)
      refine ⟨{ c with heap := hset c.heap p0 { ep0 with next := none }, tail := some p0 }, ?_, ?_, ?_, ?_, ?_⟩
      · simp [LruCache.remove_entry, he, hep', hen', hsetn]
      · rw [List.append_nil]
        exact segb_retarget_last hs1 hp0l1h hep0
      · rw [hhead]
        simp [firstPtr_append]
      · simp [lastPtr_concat]
      · exact ⟨rfl, rfl, rfl, rfl, keys_hset, kvOf_hset_link _ hep0 rfl rfl⟩
    | cons n0 l2t =>
      have hen' : e.next = some n0 := by simpa using hen
      have hn0 : n0 ∉ l2t := (List.nodup_cons.mp hndl2).1
      have hn0p0 : n0 ≠ p0 := fun h =>
        hp0l2 (h ▸ List.mem_cons_self n0 l2t)
      have hsetn := setNext_some hep0 (some n0)
      rcases segb_cons.mp hs3 with ⟨en0, hen0, _, _, _⟩
      have hen0' : hget (hset c.heap p0 { ep0 with next := some n0 }) n0 = some en0 := by
        rw [hget_hset_ne hn0p0]
        exact hen0
      refine ⟨{ c with heap := hset (hset c.heap p0 { ep0 with next := some n0 }) n0 { en0 with prev := some p0 } }, ?_, ?_, ?_, ?_, ?_⟩
      · simp [LruCache.remove_entry, he, hep', hen', hsetn, setPrev_some hen0']
      · rw [segb_append]
        simp only [Bool.and_eq_true]
        refine ⟨?_, ?_⟩
        · have h1 : segb (hset c.heap p0 { ep0 with next := some n0 }) none
              (l1h ++ [p0]) (some n0) = true :=
            segb_retarget_last hs1 hp0l1h hep0
          have hall : ∀ b ∈ l1h ++ [p0], b ≠ n0 := by
            intro b hb
            rcases List.mem_append.mp hb with h | h
            · intro hbn
              subst hbn
              exact hdisj (List.mem_append_left _ h)
                (List.mem_cons_of_mem _ (List.mem_cons_self _ _))
            · simp only [List.mem_singleton] at h
              subst h
              exact Ne.symm hn0p0
          rw [segb_congr fun b hb => hget_hset_ne (hall b hb)]
          simpa [firstPtr_append] using h1
        · have hs3' : segb (hset c.heap p0 { ep0 with next := some n0 })
              (some a) (n0 :: l2t) none = true := by
            have hall : ∀ b ∈ n0 :: l2t, b ≠ p0 := by
              intro b hb hbp
              exact hp0l2 (hbp ▸ hb)
            rw [segb_congr fun b hb => hget_hset_ne (hall b hb)]
            exact hs3
          have := segb_retarget_first (w := some p0) hs3' hn0 hen0'
          simpa [lastPtr_concat] using this
      · rw [hhead]
        simp [firstPtr_append]
      · rw [htail]
        simp [lastPtr_append, lastPtr_cons]
      · refine ⟨rfl, rfl, rfl, rfl, ?_, ?_⟩
        · rw [keys_hset, keys_hset]
        · intro b
          dsimp only
          rw [kvOf_hset_link { en0 with prev := some p0 } hen0' rfl rfl b,
            kvOf_hset_link { ep0 with next := some n0 } hep0 rfl rfl b]

/-- Linking a live, unlisted node `a` at the front of a well-linked recency
list yields the chain `a :: order` and touches nothing else. -/
theorem push_entry_front_spec {c : LruCache K V} {order : List Nat} {a : Nat}
    {e : Entry K V}
    (hseg : segb c.heap none order none = true)
    (hhead : c.head = firstPtr order none)
    (htail : c.tail = lastPtr none order)
    (he : hget c.heap a = some e)
    (hmem : a ∉ order)
    (hnd : order.Nodup) :
    ∃ c2, c.push_entry_front a = some c2 ∧
      segb c2.heap none (a :: order) none = true ∧
      c2.head = firstPtr (a :: order) none ∧
      c2.tail = lastPtr none (a :: order) ∧
      SameShape c2 c := by
  cases order with
  | nil =>
    have hh : c.head = none := by simpa using hhead
    refine ⟨{ c with heap := hset c.heap a { e with next := none, prev := none }, head := some a, tail := some a }, ?_, ?_, rfl, rfl, ?_⟩
    · simp [LruCache.push_entry_front, he, hh]
    · exact segb_cons.mpr ⟨{ e with next := none, prev := none },
        hget_hset_self he, rfl, rfl, rfl⟩
    · exact ⟨rfl, rfl, rfl, rfl, keys_hset, kvOf_hset_link _ he rfl rfl⟩
  | cons hd rest =>
    have hh : c.head = some hd := by simpa using hhead
    have hahd : a ≠ hd := fun h => hmem (h ▸ List.mem_cons_self _ _)
    have hhdrest : hd ∉ rest := (List.nodup_cons.mp hnd).1
    have harest : a ∉ rest := fun h => hmem (List.mem_cons_of_mem _ h)
    rcases segb_cons.mp hseg with ⟨ehd, hehd, hehdp, hehdn, hrest⟩
    have hehd1 : hget (hset c.heap a { e with next := some hd, prev := none }) hd
        = some ehd := by
      rw [hget_hset_ne (Ne.symm hahd)]
      exact hehd
    refine ⟨{ c with heap := hset (hset c.heap a { e with next := some hd, prev := none }) hd { ehd with prev := some a }, head := some a }, ?_, ?_, rfl, ?_, ?_⟩
    · simp [LruCache.push_entry_front, he, hh, setPrev_some hehd1]
    · apply segb_cons.mpr
      refine ⟨{ e with next := some hd, prev := none }, ?_, rfl, rfl, ?_⟩
      · rw [hget_hset_ne hahd]
        exact hget_hset_self he
      · apply segb_cons.mpr
        refine ⟨{ ehd with prev := some a }, hget_hset_self hehd1, rfl, hehdn, ?_⟩
        have hframe : ∀ b ∈ rest, b ≠ hd ∧ b ≠ a := by
          intro b hb
          exact ⟨fun h => hhdrest (h ▸ hb), fun h => harest (h ▸ hb)⟩
        have hfr : segb (hset (hset c.heap a { e with next := some hd, prev := none }) hd { ehd with prev := some a }) (some hd) rest none = segb c.heap (some hd) rest none :=
          segb_congr fun b hb => by
            rw [hget_hset_ne (hframe b hb).1, hget_hset_ne (hframe b hb).2]
        rw [hfr]
        exact hrest
    · rw [htail]
      simp
    · refine ⟨rfl, rfl, rfl, rfl, ?_, ?_⟩
      · rw [keys_hset, keys_hset]
      · intro b
        dsimp only
        rw [kvOf_hset_link { ehd with prev := some a } hehd1 rfl rfl b,
          kvOf_hset_link { e with next := some hd, prev := none } he rfl rfl b]

/-! ## Derived facts about well-formed states -/

theorem keyOf_eq_of_kvOf_eq {h2 h : List (Nat × Entry K V)} {b : Nat}
    (hkv : kvOf h2 b = kvOf h b) :
    (hget h2 b).map Entry.key = (hget h b).map Entry.key := by
  cases h1 : hget h b with
  | none => cases h1' : hget h2 b with
    | none => simp
    | some e2 => simp [kvOf, h1, h1'] at hkv
  | some e => cases h1' : hget h2 b with
    | none => simp [kvOf, h1, h1'] at hkv
    | some e2 =>
      have hk : e2.key = e.key ∧ e2.value = e.value := by
        simpa [kvOf, h1, h1', Prod.ext_iff] using hkv
      simp [hk.1]

theorem isSome_eq_of_kvOf_eq {h2 h : List (Nat × Entry K V)} {b : Nat}
    (hkv : kvOf h2 b = kvOf h b) : (hget h2 b).isSome = (hget h b).isSome := by
  have := keyOf_eq_of_kvOf_eq hkv
  cases h1 : hget h b <;> cases h1' : hget h2 b <;> simp [h1, h1'] at this ⊢

theorem bindKey_eq_of_kvOf_eq [DecidableEq K] {h2 h : List (Nat × Entry K V)}
    {m : List (K × Nat)} {b : Nat} (hkv : kvOf h2 b = kvOf h b) :
    ((hget h2 b).bind fun e => mget m e.key) =
      ((hget h b).bind fun e => mget m e.key) := by
  have hkey := keyOf_eq_of_kvOf_eq hkv
  cases h1 : hget h b with
  | none =>
    cases h1' : hget h2 b with
    | none => simp
    | some e2 => simp [h1, h1'] at hkey
  | some e =>
    cases h1' : hget h2 b with
    | none => simp [h1, h1'] at hkey
    | some e2 =>
      simp only [h1, h1', Option.map_some'] at hkey
      simp [Option.some.inj hkey]

theorem realizes_freed_nodup [DecidableEq K] {c : LruCache K V} {order : List Nat}
    (hr : Realizes c order) :
    (c.freed ++ c.heap.map Prod.fst).Nodup := by
  obtain ⟨_, _, _, _, _, _, _, halloc, _, _⟩ := hr
  exact halloc.symm.nodup (List.nodup_range _)

theorem realizes_keys_nodup [DecidableEq K] {c : LruCache K V} {order : List Nat}
    (hr : Realizes c order) : (c.heap.map Prod.fst).Nodup :=
  ((List.nodup_append.mp (realizes_freed_nodup hr)).2).1

theorem realizes_order_nodup [DecidableEq K] {c : LruCache K V} {order : List Nat}
    (hr : Realizes c order) : order.Nodup := by
  have hk := realizes_keys_nodup hr
  obtain ⟨_, _, _, hperm, _, _, _, _, _, _⟩ := hr
  exact hperm.nodup hk

/-! ## Specification of `get` -/

/-- `get` on a miss leaves the cache state entirely unchanged and reports the
miss. -/
theorem get_spec_miss [DecidableEq K] {c : LruCache K V} {k : K}
    (hm : mget c.cache k = none) : c.get k = some (c, none) := by
  simp [LruCache.get, hm]

/-- `get` on a hit moves the hit node to the front of the recency list,
returns its value, and changes nothing else: no entry is created or
destroyed, no key or value changes, the index is untouched. -/
theorem get_spec_hit [DecidableEq K] {c : LruCache K V} {order : List Nat}
    {k : K} {a : Nat}
    (hr : Realizes c order) (hm : mget c.cache k = some a) :
    ∃ l1 l2 c2 v,
      order = l1 ++ a :: l2 ∧
      c.get k = some (c2, some v) ∧
      Realizes c2 (a :: (l1 ++ l2)) ∧
      kvOf c.heap a = some (k, v) ∧
      c2.cache = c.cache ∧ c2.freed = c.freed ∧ c2.nextAddr = c.nextAddr ∧
      c2.capacity = c.capacity ∧
      (∀ b, kvOf c2.heap b = kvOf c.heap b) := by
  have hndk := realizes_keys_nodup hr
  have hndo := realizes_order_nodup hr
  obtain ⟨hseg, hhead, htail, hperm, hmk, hok, hlen, halloc, hnd, hlo⟩ := hr
  have hpair := mget_mem hm
  have hkey := hmk _ hpair
  cases he : hget c.heap a with
  | none => rw [he] at hkey; simp at hkey
  | some e =>
    rw [he] at hkey
    simp only [Option.map_some', Option.some.injEq] at hkey
    have hmem : a ∈ order := by
      refine hperm.mem_iff.mp ?_
      rw [← hget_isSome_iff]
      simp [he]
    rcases List.append_of_mem hmem with ⟨l1, l2, rfl⟩
    have hr1 := remove_entry_spec l1 l2 hseg hhead htail hndo
    rcases hr1 with ⟨c1, heq1, hseg1, hhead1, htail1, hshape1⟩
    obtain ⟨hcap1, hcache1, hna1, hfr1, hkeys1, hkv1⟩ := hshape1
    have hnd12 : (l1 ++ l2).Nodup := by
      rcases List.nodup_append.mp hndo with ⟨h1, h2, h3⟩
      exact List.nodup_append.mpr ⟨h1, (List.nodup_cons.mp h2).2,
        fun x hx => fun hx2 => h3 hx (List.mem_cons_of_mem _ hx2)⟩
    have ha12 : a ∉ l1 ++ l2 := by
      rcases List.nodup_append.mp hndo with ⟨_, h2, h3⟩
      intro hx
      rcases List.mem_append.mp hx with hx | hx
      · exact h3 hx (List.mem_cons_self _ _)
      · exact (List.nodup_cons.mp h2).1 hx
    have he1 : (hget c1.heap a).isSome := by
      rw [hget_isSome_iff, hkeys1, ← hget_isSome_iff]
      simp [he]
    rcases Option.isSome_iff_exists.mp he1 with ⟨e1, he1'⟩
    have hr2 := push_entry_front_spec hseg1 hhead1 htail1 he1' ha12 hnd12
    rcases hr2 with ⟨c2, heq2, hseg2, hhead2, htail2, hshape2⟩
    obtain ⟨hcap2, hcache2, hna2, hfr2, hkeys2, hkv2⟩ := hshape2
    have hkvc2 : ∀ b, kvOf c2.heap b = kvOf c.heap b :=
      fun b => (hkv2 b).trans (hkv1 b)
    have hkva : kvOf c2.heap a = some (k, e.value) := by
      rw [hkvc2 a]
      simp [kvOf, he, hkey]
    cases he2 : hget c2.heap a with
    | none => simp [kvOf, he2] at hkva
    | some e2 =>
      have hkva2 : e2.key = k ∧ e2.value = e.value := by
        simpa [kvOf, he2, Prod.ext_iff] using hkva
      obtain ⟨hk2, hv2⟩ := hkva2
      refine ⟨l1, l2, c2, e.value, rfl, ?_, ?_, ?_, ?_, ?_, ?_, ?_, ?_⟩
      · simp [LruCache.get, hm, heq1, heq2, he2, hv2]
      · refine ⟨hseg2, hhead2, htail2, ?_, ?_, ?_, ?_, ?_, ?_, ?_⟩
        · rw [hkeys2, hkeys1]
          exact hperm.trans List.perm_middle
        · intro p hp
          rw [hcache2, hcache1] at hp
          rw [keyOf_eq_of_kvOf_eq (hkvc2 p.2)]
          exact hmk p hp
        · intro b hb
          rw [hcache2, hcache1]
          rw [bindKey_eq_of_kvOf_eq (hkvc2 b)]
          refine hok b ?_
          rcases List.mem_cons.mp hb with rfl | hb2
          · exact List.mem_append_right _ (List.mem_cons_self _ _)
          · rcases List.mem_append.mp hb2 with h | h
            · exact List.mem_append_left _ h
            · exact List.mem_append_right _ (List.mem_cons_of_mem _ h)
        · rw [hcache2, hcache1, hcap2, hcap1]
          exact hlen
        · rw [hfr2, hfr1, hkeys2, hkeys1, hna2, hna1]
          exact halloc
        · rw [hcache2, hcache1]
          exact hnd
        · rw [hcache2, hcache1]
          simpa using hlo
      · simp [kvOf, he, hkey]
      · rw [hcache2, hcache1]
      · rw [hfr2, hfr1]
      · rw [hna2, hna1]
      · rw [hcap2, hcap1]
      · exact hkvc2

/-! ## Specification of `remove` -/

/-- `remove` of an absent key is a no-op: the state is returned unchanged. -/
theorem remove_spec_miss [DecidableEq K] {c : LruCache K V} {k : K}
    (hm : mget c.cache k = none) : c.remove k = some c := by
  simp [LruCache.remove, mremove_absent hm]

/-- `remove` of a present key deletes exactly that entry from the index, the
recency list and the heap, freeing its node once; every other entry keeps its
key, value and relative order. -/
theorem remove_spec_hit [DecidableEq K] {c : LruCache K V} {order : List Nat}
    {k : K} {a : Nat}
    (hr : Realizes c order) (hm : mget c.cache k = some a) :
    ∃ l1 l2 c2,
      order = l1 ++ a :: l2 ∧
      c.remove k = some c2 ∧
      Realizes c2 (l1 ++ l2) ∧
      mget c2.cache k = none ∧
      (∀ k2, k2 ≠ k → mget c2.cache k2 = mget c.cache k2) ∧
      c2.cache.length + 1 = c.cache.length ∧
      c2.freed = c.freed ++ [a] ∧
      c2.nextAddr = c.nextAddr ∧
      c2.capacity = c.capacity ∧
      (∀ b, b ≠ a → kvOf c2.heap b = kvOf c.heap b) ∧
      kvOf c2.heap a = none := by
  have hndk := realizes_keys_nodup hr
  have hndo := realizes_order_nodup hr
  obtain ⟨hseg, hhead, htail, hperm, hmk, hok, hlen, halloc, hnd, hlo⟩ := hr
  have hpair := mget_mem hm
  have hkey := hmk _ hpair
  dsimp only at hkey
  have hmem : a ∈ order := by
    refine hperm.mem_iff.mp ?_
    rw [← hget_isSome_iff]
    cases he : hget c.heap a
    · rw [he] at hkey; simp at hkey
    · simp
  rcases List.append_of_mem hmem with ⟨l1, l2, rfl⟩
  obtain ⟨m2, hm2⟩ : ∃ m2, mremove c.cache k = (some a, m2) :=
    ⟨(mremove c.cache k).2, by
      rw [Prod.ext_iff]
      exact ⟨by rw [mremove_fst, hm], rfl⟩⟩
  have hmg : ∀ k2, mget m2 k2 = if k2 = k then none else mget c.cache k2 := by
    intro k2
    have h2 := mget_mremove (k := k) (j := k2) hnd
    rw [hm2] at h2
    exact h2
  have hmmem : ∀ p : K × Nat, p ∈ m2 ↔ p ∈ c.cache ∧ p.1 ≠ k := by
    intro p
    have h2 := mremove_mem (k := k) (p := p) hnd
    rw [hm2] at h2
    exact h2
  have hmlen : m2.length + 1 = c.cache.length := by
    have h2 := mremove_len_present (k := k) hm
    rw [hm2] at h2
    exact h2
  have hmnd : (m2.map Prod.fst).Nodup := by
    have h2 := mremove_nodup (k := k) hnd
    rw [hm2] at h2
    exact h2
  have hr1 := remove_entry_spec (c := { c with cache := m2 }) l1 l2
    hseg hhead htail hndo
  rcases hr1 with ⟨c1, heq1, hseg1, hhead1, htail1, hshape1⟩
  obtain ⟨hcap1, hcache1, hna1, hfr1, hkeys1, hkv1⟩ := hshape1
  dsimp only at hcap1 hcache1 hna1 hfr1 hkeys1 hkv1
  have he1 : (hget c1.heap a).isSome := by
    rw [hget_isSome_iff, hkeys1]
    rw [← hget_isSome_iff]
    cases he : hget c.heap a
    · rw [he] at hkey; simp at hkey
    · simp
  rcases Option.isSome_iff_exists.mp he1 with ⟨e1, he1'⟩
  have hfree : c1.free_entry a =
      some { c1 with heap := hdel c1.heap a, freed := c1.freed ++ [a] } := by
    simp [LruCache.free_entry, he1']
  have hndo2 : (l1 ++ l2).Nodup := by
    rcases List.nodup_append.mp hndo with ⟨h1, h2, h3⟩
    exact List.nodup_append.mpr ⟨h1, (List.nodup_cons.mp h2).2,
      fun x hx => fun hx2 => h3 hx (List.mem_cons_of_mem _ hx2)⟩
  have ha12 : a ∉ l1 ++ l2 := by
    rcases List.nodup_append.mp hndo with ⟨_, h2, h3⟩
    intro hx
    rcases List.mem_append.mp hx with hx | hx
    · exact h3 hx (List.mem_cons_self _ _)
    · exact (List.nodup_cons.mp h2).1 hx
  have hal1 : a ∉ l1 := fun hx =>
    (List.nodup_append.mp hndo).2.2 hx (List.mem_cons_self _ _)
  have hkeys1nd : (c1.heap.map Prod.fst).Nodup := by
    rw [hkeys1]; exact hndk
  have hkvdel : ∀ b, b ≠ a → kvOf (hdel c1.heap a) b = kvOf c.heap b := by
    intro b hb
    rw [kvOf, hget_hdel_ne hb, ← kvOf, hkv1 b]
  have hkvdela : kvOf (hdel c1.heap a) a = none := by
    rw [kvOf, hget_hdel_self hkeys1nd]
    rfl
  refine ⟨l1, l2, { c1 with heap := hdel c1.heap a, freed := c1.freed ++ [a] },
    rfl, ?_, ?_, ?_, ?_, ?_, ?_, ?_, ?_, ?_, ?_⟩
  · show (match mremove c.cache k with
      | (some a, m) => do
        let c1 ← LruCache.remove_entry { c with cache := m } a
        c1.free_entry a
      | (none, _) => some c) = _
    rw [hm2]
    dsimp only
    rw [heq1]
    simpa using hfree
  · refine ⟨?_, hhead1, htail1, ?_, ?_, ?_, ?_, ?_, ?_, ?_⟩
    · dsimp only
      rw [segb_congr fun b hb => hget_hdel_ne fun hba => ha12 (by rw [← hba]; exact hb)]
      exact hseg1
    · dsimp only
      rw [keys_hdel, hkeys1]
      refine List.Perm.trans (hperm.erase a) ?_
      rw [List.erase_append_right _ hal1, List.erase_cons_head]
    · intro p hp
      rw [hcache1] at hp
      obtain ⟨hpmem, hpk⟩ := (hmmem p).mp hp
      have hpa : p.2 ≠ a := by
        intro hpa
        have h2 := hmk p hpmem
        rw [hpa] at h2
        cases he : hget c.heap a
        · rw [he] at h2; simp at h2
        · rw [he] at h2
          rw [he] at hkey
          simp only [Option.map_some', Option.some.injEq] at h2 hkey
          exact hpk (h2 ▸ hkey ▸ rfl)
      dsimp only
      rw [keyOf_eq_of_kvOf_eq (hkvdel p.2 hpa)]
      exact hmk p hpmem
    · intro b hb
      have hba : b ≠ a := fun h => ha12 (h ▸ hb)
      have hbo : b ∈ l1 ++ a :: l2 := by
        rcases List.mem_append.mp hb with h | h
        · exact List.mem_append_left _ h
        · exact List.mem_append_right _ (List.mem_cons_of_mem _ h)
      have hokb := hok b hbo
      dsimp only
      rw [hcache1]
      rw [bindKey_eq_of_kvOf_eq (m := m2) (hkvdel b hba)]
      cases he : hget c.heap b with
      | none => rw [he] at hokb; simp at hokb
      | some eb =>
        rw [he] at hokb
        simp only [Option.some_bind] at hokb ⊢
        have hkb : eb.key ≠ k := by
          intro hkb
          rw [hkb, hm] at hokb
          exact hba (Option.some.inj hokb).symm
        rw [hmg, if_neg hkb]
        exact hokb
    · dsimp only
      rw [hcache1]
      omega
    · dsimp only
      rw [hfr1, hna1, keys_hdel, hkeys1]
      have hamem : a ∈ c.heap.map Prod.fst := by
        rw [← hget_isSome_iff]
        cases he : hget c.heap a
        · rw [he] at hkey; simp at hkey
        · simp
      have hstep : ((c.freed ++ [a]) ++ (c.heap.map Prod.fst).erase a).Perm
          (c.freed ++ c.heap.map Prod.fst) := by
        rw [List.append_assoc]
        exact List.Perm.append_left _ (List.perm_cons_erase hamem).symm
      exact hstep.trans halloc
    · dsimp only
      rw [hcache1]
      exact hmnd
    · dsimp only
      rw [hcache1]
      have h2 : (l1 ++ a :: l2).length = (l1 ++ l2).length + 1 := by
        simp only [List.length_append, List.length_cons]
        omega
      omega
  · dsimp only
    rw [hcache1, hmg, if_pos rfl]
  · intro k2 hk2
    dsimp only
    rw [hcache1, hmg, if_neg hk2]
  · dsimp only
    rw [hcache1]
    omega
  · dsimp only
    rw [hfr1]
  · exact hna1
  · exact hcap1
  · intro b hb
    exact hkvdel b hb
  · exact hkvdela

/-! ## Specification of `insert` -/

theorem fresh_not_mem_keys [DecidableEq K] {c : LruCache K V} {order : List Nat}
    (hr : Realizes c order) : c.nextAddr ∉ c.heap.map Prod.fst := by
  obtain ⟨_, _, _, _, _, _, _, halloc, _, _⟩ := hr
  intro hmem
  have h1 : c.nextAddr ∈ c.freed ++ c.heap.map Prod.fst :=
    List.mem_append_right _ hmem
  have h2 := halloc.mem_iff.mp h1
  rw [List.mem_range] at h2
  omega

theorem fresh_not_mem_order [DecidableEq K] {c : LruCache K V} {order : List Nat}
    (hr : Realizes c order) : c.nextAddr ∉ order := by
  have h1 := fresh_not_mem_keys hr
  obtain ⟨_, _, _, hperm, _, _, _, _, _, _⟩ := hr
  exact fun hmem => h1 (hperm.mem_iff.mpr hmem)

/-- The first phase of `insert`: allocating the fresh node and pushing it at
the front of the recency list. -/
theorem insert_common [DecidableEq K] {c : LruCache K V} {order : List Nat}
    (hr : Realizes c order) (k : K) (v : V) :
    ∃ c1, ((c.get_free_entry k v).2).push_entry_front c.nextAddr
        = some c1 ∧
      segb c1.heap none (c.nextAddr :: order) none = true ∧
      c1.head = firstPtr (c.nextAddr :: order) none ∧
      c1.tail = lastPtr none (c.nextAddr :: order) ∧
      c1.cache = c.cache ∧ c1.capacity = c.capacity ∧
      c1.nextAddr = c.nextAddr + 1 ∧ c1.freed = c.freed ∧
      c1.heap.map Prod.fst = c.heap.map Prod.fst ++ [c.nextAddr] ∧
      kvOf c1.heap c.nextAddr = some (k, v) ∧
      (∀ b, b ≠ c.nextAddr → kvOf c1.heap b = kvOf c.heap b) := by
  have hfresh := fresh_not_mem_keys hr
  have hfro := fresh_not_mem_order hr
  have hndo := realizes_order_nodup hr
  obtain ⟨hseg, hhead, htail, hperm, hmk, hok, hlen, halloc, hnd, hlo⟩ := hr
  have hgnone : hget c.heap c.nextAddr = none := hget_eq_none_iff.mpr hfresh
  have hga : hget ((c.get_free_entry k v).2).heap c.nextAddr
      = some ⟨k, v, none, none⟩ := by
    dsimp only [LruCache.get_free_entry]
    rw [hget_append_right hgnone]
    simp [hget]
  have hframe : ∀ b ∈ order, hget ((c.get_free_entry k v).2).heap b
      = hget c.heap b := by
    intro b hb
    dsimp only [LruCache.get_free_entry]
    cases he : hget c.heap b with
    | none =>
      rw [hget_append_right he]
      have hba : b ≠ c.nextAddr := fun h => hfro (h ▸ hb)
      simp [hget, hba]
    | some e => exact hget_append_left he
  have hseg0 : segb ((c.get_free_entry k v).2).heap none order none = true := by
    rw [segb_congr hframe]
    exact hseg
  have hr2 := push_entry_front_spec (c := (c.get_free_entry k v).2)
    hseg0 hhead htail hga hfro hndo
  rcases hr2 with ⟨c1, heq, hseg1, hhead1, htail1, hshape⟩
  obtain ⟨hcap1, hcache1, hna1, hfr1, hkeys1, hkv1⟩ := hshape
  dsimp only [LruCache.get_free_entry] at hcap1 hcache1 hna1 hfr1 hkeys1
  refine ⟨c1, heq, hseg1, hhead1, htail1, hcache1, hcap1, hna1, hfr1, ?_, ?_, ?_⟩
  · rw [hkeys1]
    simp
  · rw [hkv1]
    simp [kvOf, hga]
  · intro b hb
    rw [hkv1 b]
    dsimp only [LruCache.get_free_entry, kvOf]
    cases he : hget c.heap b with
    | none =>
      rw [hget_append_right he]
      simp [hget, hb]
    | some e => rw [hget_append_left he]

/-- The definition of `insert`, with the allocation pair projected away. -/
theorem insert_unfold [DecidableEq K] (c : LruCache K V) (k : K) (v : V) :
    c.insert k v = ((c.get_free_entry k v).2.push_entry_front c.nextAddr).bind
      fun c1 =>
        match (minsert c1.cache k c.nextAddr).1 with
        | some old =>
          (LruCache.remove_entry
            { c1 with cache := (minsert c1.cache k c.nextAddr).2 } old).bind
            fun c3 => c3.free_entry old
        | none =>
          if (minsert c1.cache k c.nextAddr).2.length > c1.capacity then
            match c1.tail with
            | some t =>
              (LruCache.remove_entry
                { c1 with cache := (minsert c1.cache k c.nextAddr).2 } t).bind
                fun c3 => (hget c3.heap t).bind
                  fun e => LruCache.free_entry
                    { c3 with cache := (mremove c3.cache e.key).2 } t
            | none => some { c1 with cache := (minsert c1.cache k c.nextAddr).2 }
          else some { c1 with cache := (minsert c1.cache k c.nextAddr).2 } :=
  rfl

/-- `insert` of an already-present key replaces the stored value, resets the
recency of that key to most-recently-used, frees the superseded node, leaves
the count unchanged and evicts no other key. -/
theorem insert_spec_replace [DecidableEq K] {c : LruCache K V}
    {order : List Nat} {k : K} {old : Nat} (v : V)
    (hr : Realizes c order) (hm : mget c.cache k = some old) :
    ∃ l1 l2 c2,
      order = l1 ++ old :: l2 ∧
      c.insert k v = some c2 ∧
      Realizes c2 (c.nextAddr :: (l1 ++ l2)) ∧
      mget c2.cache k = some c.nextAddr ∧
      (∀ k2, k2 ≠ k → mget c2.cache k2 = mget c.cache k2) ∧
      kvOf c2.heap c.nextAddr = some (k, v) ∧
      (∀ b, b ≠ old → b ≠ c.nextAddr → kvOf c2.heap b = kvOf c.heap b) ∧
      c2.cache.length = c.cache.length ∧
      c2.freed = c.freed ++ [old] ∧
      c2.nextAddr = c.nextAddr + 1 ∧
      c2.capacity = c.capacity := by
  have hfresh := fresh_not_mem_keys hr
  have hfro := fresh_not_mem_order hr
  have hndo := realizes_order_nodup hr
  have hcommon := insert_common hr k v
  rcases hcommon with ⟨c1, heq, hseg1, hhead1, htail1, hcache1, hcap1, hna1,
    hfr1, hkeys1, hkva, hkvb⟩
  obtain ⟨hseg, hhead, htail, hperm, hmk, hok, hlen, halloc, hnd, hlo⟩ := hr
  have hkeyold := hmk _ (mget_mem hm)
  dsimp only at hkeyold
  have holdkeys : old ∈ c.heap.map Prod.fst := by
    rw [← hget_isSome_iff]
    cases he : hget c.heap old
    · rw [he] at hkeyold; simp at hkeyold
    · simp
  have holdmem : old ∈ order := hperm.mem_iff.mp holdkeys
  have hane : c.nextAddr ≠ old := fun h => hfro (h ▸ holdmem)
  rcases List.append_of_mem holdmem with ⟨l1, l2, rfl⟩
  obtain ⟨m, hmins⟩ : ∃ m, minsert c1.cache k c.nextAddr = (some old, m) :=
    ⟨(minsert c1.cache k c.nextAddr).2, by
      rw [Prod.ext_iff]
      exact ⟨by rw [minsert_fst, hcache1, hm], rfl⟩⟩
  have hmget : ∀ k2, mget m k2 =
      if k2 = k then some c.nextAddr else mget c.cache k2 := by
    intro k2
    have h2 := mget_minsert (m := c1.cache) (k := k) (j := k2) (a := c.nextAddr)
    rw [hmins, hcache1] at h2
    exact h2
  have hndc1 : (c1.cache.map Prod.fst).Nodup := by rw [hcache1]; exact hnd
  have hmmem : ∀ p : K × Nat, p ∈ m ↔
      p = (k, c.nextAddr) ∨ (p ∈ c.cache ∧ p.1 ≠ k) := by
    intro p
    have h2 := minsert_mem (m := c1.cache) (k := k) (a := c.nextAddr) (p := p) hndc1
    rw [hmins, hcache1] at h2
    exact h2
  have hmlen : m.length = c.cache.length := by
    have h2 := minsert_len_present (m := c1.cache) (k := k) (a := c.nextAddr)
      (b := old) (by rw [hcache1]; exact hm)
    rw [hmins, hcache1] at h2
    exact h2
  have hmkeys : m.map Prod.fst = c.cache.map Prod.fst := by
    have h2 := minsert_keys_present (m := c1.cache) (k := k) (a := c.nextAddr)
      (b := old) (by rw [hcache1]; exact hm)
    rw [hmins, hcache1] at h2
    exact h2
  have hmnd : (m.map Prod.fst).Nodup := by rw [hmkeys]; exact hnd
  have hndao : (c.nextAddr :: (l1 ++ old :: l2)).Nodup :=
    List.nodup_cons.mpr ⟨hfro, hndo⟩
  have hr3 := remove_entry_spec (c := { c1 with cache := m })
    (c.nextAddr :: l1) l2 (a := old)
    (by simpa using hseg1) (by simpa using hhead1) (by simpa using htail1)
    (by simpa using hndao)
  rcases hr3 with ⟨c3, heq3, hseg3, hhead3, htail3, hshape3⟩
  obtain ⟨hcap3, hcache3, hna3, hfr3, hkeys3, hkv3⟩ := hshape3
  dsimp only at hcap3 hcache3 hna3 hfr3 hkeys3 hkv3
  have holdc3 : (hget c3.heap old).isSome := by
    rw [hget_isSome_iff, hkeys3, hkeys1]
    exact List.mem_append_left _ holdkeys
  rcases Option.isSome_iff_exists.mp holdc3 with ⟨e3, he3⟩
  have hfree : c3.free_entry old =
      some { c3 with heap := hdel c3.heap old, freed := c3.freed ++ [old] } := by
    simp [LruCache.free_entry, he3]
  have hal1 : old ∉ l1 := fun hx =>
    (List.nodup_append.mp hndo).2.2 hx (List.mem_cons_self _ _)
  have ha12 : old ∉ l1 ++ l2 := by
    rcases List.nodup_append.mp hndo with ⟨_, h2, h3⟩
    intro hx
    rcases List.mem_append.mp hx with hx | hx
    · exact h3 hx (List.mem_cons_self _ _)
    · exact (List.nodup_cons.mp h2).1 hx
  have hkv4 : ∀ b, b ≠ old →
      kvOf (hdel c3.heap old) b = kvOf c1.heap b := by
    intro b hb
    rw [kvOf, hget_hdel_ne hb, ← kvOf, hkv3 b]
  have hkv4c : ∀ b, b ≠ old → b ≠ c.nextAddr →
      kvOf (hdel c3.heap old) b = kvOf c.heap b := by
    intro b hb hba
    rw [hkv4 b hb, hkvb b hba]
  have hkv4a : kvOf (hdel c3.heap old) c.nextAddr = some (k, v) := by
    rw [hkv4 _ hane, hkva]
  refine ⟨l1, l2, { c3 with heap := hdel c3.heap old, freed := c3.freed ++ [old] },
    rfl, ?_, ?_, ?_, ?_, ?_, ?_, ?_, ?_, ?_, ?_⟩
  · rw [insert_unfold, heq]
    simp only [Option.some_bind]
    rw [hmins]
    dsimp only
    rw [heq3]
    simp only [Option.some_bind]
    exact hfree
  · refine ⟨?_, ?_, ?_, ?_, ?_, ?_, ?_, ?_, ?_, ?_⟩
    · dsimp only
      have hfr : ∀ b ∈ c.nextAddr :: (l1 ++ l2), b ≠ old := by
        intro b hb
        rcases List.mem_cons.mp hb with rfl | hb2
        · exact hane
        · exact fun h => ha12 (h ▸ hb2)
      rw [segb_congr fun b hb => hget_hdel_ne (hfr b hb)]
      simpa using hseg3
    · dsimp only
      simpa using hhead3
    · dsimp only
      simpa using htail3
    · dsimp only
      rw [keys_hdel, hkeys3, hkeys1]
      have hp1 : ((c.heap.map Prod.fst ++ [c.nextAddr]).erase old).Perm
          (((l1 ++ old :: l2) ++ [c.nextAddr]).erase old) :=
        (hperm.append_right [c.nextAddr]).erase old
      have hp2 : ((l1 ++ old :: l2) ++ [c.nextAddr]).erase old
          = l1 ++ (l2 ++ [c.nextAddr]) := by
        rw [List.append_assoc, List.erase_append_right _ hal1]
        simp
      have hp3 : (l1 ++ (l2 ++ [c.nextAddr])).Perm (c.nextAddr :: (l1 ++ l2)) := by
        rw [← List.append_assoc]
        exact List.perm_append_comm
      have hp4 : (((l1 ++ old :: l2) ++ [c.nextAddr]).erase old).Perm
          (c.nextAddr :: (l1 ++ l2)) := by
        rw [hp2]
        exact hp3
      exact hp1.trans hp4
    · intro p hp
      dsimp only at hp ⊢
      rw [hcache3] at hp
      rcases (hmmem p).mp hp with rfl | ⟨hpmem, hpk⟩
      · dsimp only
        cases hg : hget (hdel c3.heap old) c.nextAddr with
        | none => rw [kvOf, hg] at hkv4a; simp at hkv4a
        | some e =>
          rw [kvOf, hg] at hkv4a
          simp only [Option.map_some', Option.some.injEq] at hkv4a
          have hek : e.key = k := by
            have h2 := congrArg Prod.fst hkv4a
            simpa using h2
          simp [hg, hek]
      · have hpold : p.2 ≠ old := by
          intro hpa
          have h2 := hmk p hpmem
          rw [hpa] at h2
          cases he : hget c.heap old
          · rw [he] at h2; simp at h2
          · rw [he] at h2
            rw [he] at hkeyold
            simp only [Option.map_some', Option.some.injEq] at h2 hkeyold
            exact hpk (h2 ▸ hkeyold ▸ rfl)
        have hpa2 : p.2 ≠ c.nextAddr := by
          intro hpa
          have h2 := hmk p hpmem
          rw [hpa, hget_eq_none_iff.mpr hfresh] at h2
          simp at h2
        rw [keyOf_eq_of_kvOf_eq (hkv4c p.2 hpold hpa2)]
        exact hmk p hpmem
    · intro b hb
      dsimp only
      rw [hcache3]
      rcases List.mem_cons.mp hb with rfl | hb2
      · cases hg : hget (hdel c3.heap old) c.nextAddr with
        | none => rw [kvOf, hg] at hkv4a; simp at hkv4a
        | some e =>
          rw [kvOf, hg] at hkv4a
          simp only [Option.map_some', Option.some.injEq] at hkv4a
          have hek : e.key = k := by
            have h2 := congrArg Prod.fst hkv4a
            simpa using h2
          simp only [Option.some_bind]
          rw [hek, hmget, if_pos rfl]
      · have hbo : b ∈ l1 ++ old :: l2 := by
          rcases List.mem_append.mp hb2 with h | h
          · exact List.mem_append_left _ h
          · exact List.mem_append_right _ (List.mem_cons_of_mem _ h)
        have hb_old : b ≠ old := fun h => ha12 (h ▸ hb2)
        have hb_a : b ≠ c.nextAddr := fun h => hfro (h ▸ hbo)
        have hokb := hok b hbo
        rw [bindKey_eq_of_kvOf_eq (m := m) (hkv4c b hb_old hb_a)]
        cases he : hget c.heap b with
        | none => rw [he] at hokb; simp at hokb
        | some eb =>
          rw [he] at hokb
          simp only [Option.some_bind] at hokb ⊢
          have hkb : eb.key ≠ k := by
            intro hkb
            rw [hkb, hm] at hokb
            exact hb_old (Option.some.inj hokb).symm
          rw [hmget, if_neg hkb]
          exact hokb
    · dsimp only
      rw [hcache3, hcap3, hcap1, hmlen]
      exact hlen
    · dsimp only
      rw [hfr3, hfr1, hna3, hna1, keys_hdel, hkeys3, hkeys1]
      have holdka : old ∈ c.heap.map Prod.fst ++ [c.nextAddr] :=
        List.mem_append_left _ holdkeys
      have ha2 : ([old] ++ (c.heap.map Prod.fst ++ [c.nextAddr]).erase old).Perm
          (c.heap.map Prod.fst ++ [c.nextAddr]) :=
        (List.perm_cons_erase holdka).symm
      have ha3 : (c.freed ++ (c.heap.map Prod.fst ++ [c.nextAddr])).Perm
          (List.range (c.nextAddr + 1)) := by
        rw [List.range_succ, ← List.append_assoc]
        exact halloc.append_right _
      rw [List.append_assoc]
      exact (List.Perm.append_left _ ha2).trans ha3
    · dsimp only
      rw [hcache3]
      exact hmnd
    · dsimp only
      rw [hcache3, hmlen, hlo]
      simp only [List.length_append, List.length_cons]
      omega
  · dsimp only
    rw [hcache3, hmget, if_pos rfl]
  · intro k2 hk2
    dsimp only
    rw [hcache3, hmget, if_neg hk2]
  · exact hkv4a
  · intro b hb hba
    exact hkv4c b hb hba
  · dsimp only
    rw [hcache3, hmlen]
  · dsimp only
    rw [hfr3, hfr1]
  · dsimp only
    rw [hna3, hna1]
  · dsimp only
    rw [hcap3, hcap1]

/-- `insert` of a fresh key while below capacity adds the new entry at the
front of the recency list and evicts nothing. -/
theorem insert_spec_fresh [DecidableEq K] {c : LruCache K V}
    {order : List Nat} {k : K} (v : V)
    (hr : Realizes c order) (hm : mget c.cache k = none)
    (hfit : c.cache.length + 1 ≤ c.capacity) :
    ∃ c2,
      c.insert k v = some c2 ∧
      Realizes c2 (c.nextAddr :: order) ∧
      mget c2.cache k = some c.nextAddr ∧
      (∀ k2, k2 ≠ k → mget c2.cache k2 = mget c.cache k2) ∧
      kvOf c2.heap c.nextAddr = some (k, v) ∧
      (∀ b, b ≠ c.nextAddr → kvOf c2.heap b = kvOf c.heap b) ∧
      c2.cache.length = c.cache.length + 1 ∧
      c2.freed = c.freed ∧
      c2.nextAddr = c.nextAddr + 1 ∧
      c2.capacity = c.capacity := by
  have hfresh := fresh_not_mem_keys hr
  have hfro := fresh_not_mem_order hr
  have hndo := realizes_order_nodup hr
  have hcommon := insert_common hr k v
  rcases hcommon with ⟨c1, heq, hseg1, hhead1, htail1, hcache1, hcap1, hna1,
    hfr1, hkeys1, hkva, hkvb⟩
  obtain ⟨hseg, hhead, htail, hperm, hmk, hok, hlen, halloc, hnd, hlo⟩ := hr
  obtain ⟨m, hmins⟩ : ∃ m, minsert c1.cache k c.nextAddr = (none, m) :=
    ⟨(minsert c1.cache k c.nextAddr).2, by
      rw [Prod.ext_iff]
      exact ⟨by rw [minsert_fst, hcache1, hm], rfl⟩⟩
  have hmget : ∀ k2, mget m k2 =
      if k2 = k then some c.nextAddr else mget c.cache k2 := by
    intro k2
    have h2 := mget_minsert (m := c1.cache) (k := k) (j := k2) (a := c.nextAddr)
    rw [hmins, hcache1] at h2
    exact h2
  have hndc1 : (c1.cache.map Prod.fst).Nodup := by rw [hcache1]; exact hnd
  have hmmem : ∀ p : K × Nat, p ∈ m ↔
      p = (k, c.nextAddr) ∨ (p ∈ c.cache ∧ p.1 ≠ k) := by
    intro p
    have h2 := minsert_mem (m := c1.cache) (k := k) (a := c.nextAddr) (p := p) hndc1
    rw [hmins, hcache1] at h2
    exact h2
  have hmabs : m = c.cache ++ [(k, c.nextAddr)] := by
    have h2 := minsert_absent (m := c1.cache) (k := k) (a := c.nextAddr)
      (by rw [hcache1]; exact hm)
    rw [hmins, hcache1] at h2
    exact h2
  have hmlen : m.length = c.cache.length + 1 := by
    rw [hmabs]
    simp
  have hmnd : (m.map Prod.fst).Nodup := by
    have h2 := minsert_nodup (m := c1.cache) (k := k) (a := c.nextAddr) hndc1
    rw [hmins] at h2
    exact h2
  refine ⟨{ c1 with cache := m }, ?_, ?_, ?_, ?_, ?_, ?_, ?_, ?_, ?_, ?_⟩
  · rw [insert_unfold, heq]
    simp only [Option.some_bind]
    rw [hmins]
    dsimp only
    rw [if_neg]
    rw [hmlen, hcap1]
    omega
  · refine ⟨hseg1, hhead1, htail1, ?_, ?_, ?_, ?_, ?_, ?_, ?_⟩
    · dsimp only
      rw [hkeys1]
      refine (hperm.append_right [c.nextAddr]).trans ?_
      exact List.perm_append_comm
    · intro p hp
      dsimp only at hp ⊢
      rcases (hmmem p).mp hp with rfl | ⟨hpmem, hpk⟩
      · dsimp only
        cases hg : hget c1.heap c.nextAddr with
        | none => rw [kvOf, hg] at hkva; simp at hkva
        | some e =>
          rw [kvOf, hg] at hkva
          simp only [Option.map_some', Option.some.injEq] at hkva
          have hek : e.key = k := by
            have h2 := congrArg Prod.fst hkva
            simpa using h2
          simp [hg, hek]
      · have hpa2 : p.2 ≠ c.nextAddr := by
          intro hpa
          have h2 := hmk p hpmem
          rw [hpa, hget_eq_none_iff.mpr hfresh] at h2
          simp at h2
        rw [keyOf_eq_of_kvOf_eq (hkvb p.2 hpa2)]
        exact hmk p hpmem
    · intro b hb
      dsimp only
      rcases List.mem_cons.mp hb with rfl | hb2
      · cases hg : hget c1.heap c.nextAddr with
        | none => rw [kvOf, hg] at hkva; simp at hkva
        | some e =>
          rw [kvOf, hg] at hkva
          simp only [Option.map_some', Option.some.injEq] at hkva
          have hek : e.key = k := by
            have h2 := congrArg Prod.fst hkva
            simpa using h2
          simp only [hg, Option.some_bind]
          rw [hek, hmget, if_pos rfl]
      · have hb_a : b ≠ c.nextAddr := fun h => hfro (h ▸ hb2)
        have hokb := hok b hb2
        rw [bindKey_eq_of_kvOf_eq (m := m) (hkvb b hb_a)]
        cases he : hget c.heap b with
        | none => rw [he] at hokb; simp at hokb
        | some eb =>
          rw [he] at hokb
          simp only [Option.some_bind] at hokb ⊢
          have hkb : eb.key ≠ k := by
            intro hkb
            rw [hkb, hm] at hokb
            exact Option.noConfusion hokb
          rw [hmget, if_neg hkb]
          exact hokb
    · dsimp only
      rw [hcap1, hmlen]
      exact hfit
    · dsimp only
      rw [hfr1, hna1, hkeys1, List.range_succ, ← List.append_assoc]
      exact halloc.append_right _
    · dsimp only
      exact hmnd
    · dsimp only
      rw [hmlen, hlo]
      simp
  · dsimp only
    rw [hmget, if_pos rfl]
  · intro k2 hk2
    dsimp only
    rw [hmget, if_neg hk2]
  · dsimp only
    exact hkva
  · intro b hb
    dsimp only
    exact hkvb b hb
  · dsimp only
    exact hmlen
  · dsimp only
    exact hfr1
  · dsimp only
    exact hna1
  · dsimp only
    exact hcap1

/-- `insert` of a fresh key at capacity evicts exactly the entry at the back
of the recency list: its key leaves the index, its node leaves the list and
the heap, and exactly one node is freed.  All other entries are untouched. -/
theorem insert_spec_evict [DecidableEq K] {c : LruCache K V}
    {order o1 : List Nat} {t : Nat} {k : K} (v : V)
    (hr : Realizes c order) (hm : mget c.cache k = none)
    (hfull : c.capacity < c.cache.length + 1)
    (hord : order = o1 ++ [t]) :
    ∃ c2 et,
      hget c.heap t = some et ∧
      mget c.cache et.key = some t ∧
      et.key ≠ k ∧
      c.insert k v = some c2 ∧
      Realizes c2 (c.nextAddr :: o1) ∧
      mget c2.cache k = some c.nextAddr ∧
      mget c2.cache et.key = none ∧
      (∀ k2, k2 ≠ k → k2 ≠ et.key → mget c2.cache k2 = mget c.cache k2) ∧
      kvOf c2.heap c.nextAddr = some (k, v) ∧
      (∀ b, b ≠ t → b ≠ c.nextAddr → kvOf c2.heap b = kvOf c.heap b) ∧
      kvOf c2.heap t = none ∧
      c2.cache.length = c.cache.length ∧
      c2.freed = c.freed ++ [t] ∧
      c2.nextAddr = c.nextAddr + 1 ∧
      c2.capacity = c.capacity := by
  subst hord
  have hfresh := fresh_not_mem_keys hr
  have hfro := fresh_not_mem_order hr
  have hndo := realizes_order_nodup hr
  have hcommon := insert_common hr k v
  rcases hcommon with ⟨c1, heq, hseg1, hhead1, htail1, hcache1, hcap1, hna1,
    hfr1, hkeys1, hkva, hkvb⟩
  obtain ⟨hseg, hhead, htail, hperm, hmk, hok, hlen, halloc, hnd, hlo⟩ := hr
  have htmem : t ∈ o1 ++ [t] := List.mem_append_right _ (List.mem_cons_self _ _)
  have hta : t ≠ c.nextAddr := fun h => hfro (h ▸ htmem)
  have hto1 : t ∉ o1 := fun h =>
    (List.nodup_append.mp hndo).2.2 h (List.mem_cons_self _ _)
  rcases Option.isSome_iff_exists.mp (segb_isSome hseg htmem) with ⟨et, het⟩
  have hokt := hok t htmem
  rw [het] at hokt
  simp only [Option.some_bind] at hokt
  have hktk : et.key ≠ k := by
    intro h
    rw [h, hm] at hokt
    exact Option.noConfusion hokt
  obtain ⟨m, hmins⟩ : ∃ m, minsert c1.cache k c.nextAddr = (none, m) :=
    ⟨(minsert c1.cache k c.nextAddr).2, by
      rw [Prod.ext_iff]
      exact ⟨by rw [minsert_fst, hcache1, hm], rfl⟩⟩
  have hmget : ∀ k2, mget m k2 =
      if k2 = k then some c.nextAddr else mget c.cache k2 := by
    intro k2
    have h2 := mget_minsert (m := c1.cache) (k := k) (j := k2) (a := c.nextAddr)
    rw [hmins, hcache1] at h2
    exact h2
  have hndc1 : (c1.cache.map Prod.fst).Nodup := by rw [hcache1]; exact hnd
  have hmmem : ∀ p : K × Nat, p ∈ m ↔
      p = (k, c.nextAddr) ∨ (p ∈ c.cache ∧ p.1 ≠ k) := by
    intro p
    have h2 := minsert_mem (m := c1.cache) (k := k) (a := c.nextAddr) (p := p) hndc1
    rw [hmins, hcache1] at h2
    exact h2
  have hmabs : m = c.cache ++ [(k, c.nextAddr)] := by
    have h2 := minsert_absent (m := c1.cache) (k := k) (a := c.nextAddr)
      (by rw [hcache1]; exact hm)
    rw [hmins, hcache1] at h2
    exact h2
  have hmlen : m.length = c.cache.length + 1 := by rw [hmabs]; simp
  have hmnd : (m.map Prod.fst).Nodup := by
    have h2 := minsert_nodup (m := c1.cache) (k := k) (a := c.nextAddr) hndc1
    rw [hmins] at h2
    exact h2
  have hndao : (c.nextAddr :: (o1 ++ [t])).Nodup :=
    List.nodup_cons.mpr ⟨hfro, hndo⟩
  have hr3 := remove_entry_spec (c := { c1 with cache := m })
    (c.nextAddr :: o1) [] (a := t)
    (by simpa using hseg1) (by simpa using hhead1) (by simpa using htail1)
    (by simpa using hndao)
  rcases hr3 with ⟨c3, heq3, hseg3, hhead3, htail3, hshape3⟩
  obtain ⟨hcap3, hcache3, hna3, hfr3, hkeys3, hkv3⟩ := hshape3
  dsimp only at hcap3 hcache3 hna3 hfr3 hkeys3 hkv3
  have hkvt : kvOf c3.heap t = some (et.key, et.value) := by
    rw [hkv3 t, hkvb t hta]
    simp [kvOf, het]
  cases he3 : hget c3.heap t with
  | none => rw [kvOf, he3] at hkvt; simp at hkvt
  | some et3 =>
    rw [kvOf, he3] at hkvt
    simp only [Option.map_some', Option.some.injEq] at hkvt
    have het3k : et3.key = et.key := by
      have h2 := congrArg Prod.fst hkvt
      simpa using h2
    obtain ⟨m4, hm4⟩ : ∃ m4, mremove m et.key = (some t, m4) :=
      ⟨(mremove m et.key).2, by
        rw [Prod.ext_iff]
        refine ⟨?_, rfl⟩
        rw [mremove_fst, hmget, if_neg hktk]
        exact hokt⟩
    have hm4get : ∀ k2, mget m4 k2 =
        if k2 = et.key then none else mget m k2 := by
      intro k2
      have h2 := mget_mremove (m := m) (k := et.key) (j := k2) hmnd
      rw [hm4] at h2
      exact h2
    have hm4mem : ∀ p : K × Nat, p ∈ m4 ↔ p ∈ m ∧ p.1 ≠ et.key := by
      intro p
      have h2 := mremove_mem (m := m) (k := et.key) (p := p) hmnd
      rw [hm4] at h2
      exact h2
    have hm4len : m4.length + 1 = m.length := by
      have h2 := mremove_len_present (m := m) (k := et.key) (a := t)
        (by rw [hmget, if_neg hktk]; exact hokt)
      rw [hm4] at h2
      exact h2
    have hm4nd : (m4.map Prod.fst).Nodup := by
      have h2 := mremove_nodup (m := m) (k := et.key) hmnd
      rw [hm4] at h2
      exact h2
    have ht3s : (hget c3.heap t).isSome := by simp [he3]
    have hfree : LruCache.free_entry { c3 with cache := m4 } t = some { c3 with cache := m4, heap := hdel c3.heap t, freed := c3.freed ++ [t] } := by
      simp [LruCache.free_entry, he3]
    have hkeys3e : c3.heap.map Prod.fst = c.heap.map Prod.fst ++ [c.nextAddr] := by
      rw [hkeys3, hkeys1]
    have hkv5 : ∀ b, b ≠ t → kvOf (hdel c3.heap t) b = kvOf c3.heap b := by
      intro b hb
      rw [kvOf, hget_hdel_ne hb, kvOf]
    have hkv5c : ∀ b, b ≠ t → b ≠ c.nextAddr →
        kvOf (hdel c3.heap t) b = kvOf c.heap b := by
      intro b hb hba
      rw [hkv5 b hb, hkv3 b, hkvb b hba]
    have hkv5a : kvOf (hdel c3.heap t) c.nextAddr = some (k, v) := by
      rw [hkv5 _ (Ne.symm hta), hkv3, hkva]
    have hndkeys3 : (c3.heap.map Prod.fst).Nodup := by
      rw [hkeys3e]
      have h2 : ((c.freed ++ c.heap.map Prod.fst) ++ [c.nextAddr]).Perm
          (List.range (c.nextAddr + 1)) := by
        rw [List.range_succ]
        exact halloc.append_right _
      have h3 := h2.symm.nodup (List.nodup_range _)
      rw [List.append_assoc] at h3
      exact ((List.nodup_append.mp h3).2).1
    have hkv5t : kvOf (hdel c3.heap t) t = none := by
      rw [kvOf, hget_hdel_self hndkeys3]
      rfl
    refine ⟨{ c3 with cache := m4, heap := hdel c3.heap t, freed := c3.freed ++ [t] }, et, het, hokt, hktk, ?_, ?_, ?_, ?_, ?_, ?_, ?_, ?_, ?_, ?_, ?_, ?_⟩
    · rw [insert_unfold, heq]
      simp only [Option.some_bind]
      rw [hmins]
      dsimp only
      rw [if_pos (by rw [hcap1]; omega : m.length > c1.capacity)]
      have htail1t : c1.tail = some t := by rw [htail1]; exact lastPtr_concat
      rw [htail1t]
      dsimp only
      rw [htail1t] at heq3
      rw [heq3]
      simp only [Option.some_bind]
      rw [he3]
      simp only [Option.some_bind]
      rw [hcache3, het3k, hm4]
      dsimp only
      exact hfree
    · refine ⟨?_, ?_, ?_, ?_, ?_, ?_, ?_, ?_, ?_, ?_⟩
      · dsimp only
        have hfr : ∀ b ∈ c.nextAddr :: o1, b ≠ t := by
          intro b hb
          rcases List.mem_cons.mp hb with rfl | hb2
          · exact Ne.symm hta
          · exact fun h => hto1 (h ▸ hb2)
        rw [segb_congr fun b hb => hget_hdel_ne (hfr b hb)]
        simpa using hseg3
      · dsimp only
        simpa using hhead3
      · dsimp only
        simpa using htail3
      · dsimp only
        rw [keys_hdel, hkeys3e]
        have hp1 : ((c.heap.map Prod.fst ++ [c.nextAddr]).erase t).Perm
            (((o1 ++ [t]) ++ [c.nextAddr]).erase t) :=
          (hperm.append_right [c.nextAddr]).erase t
        have hp2 : ((o1 ++ [t]) ++ [c.nextAddr]).erase t
            = o1 ++ [c.nextAddr] := by
          rw [List.append_assoc, List.erase_append_right _ hto1]
          simp
        have hp3 : (o1 ++ [c.nextAddr]).Perm (c.nextAddr :: o1) :=
          List.perm_append_comm
        have hp4 : (((o1 ++ [t]) ++ [c.nextAddr]).erase t).Perm
            (c.nextAddr :: o1) := by
          rw [hp2]
          exact hp3
        exact hp1.trans hp4
      · intro p hp
        dsimp only at hp ⊢
        rcases (hm4mem p).mp hp with ⟨hpm, hpkt⟩
        rcases (hmmem p).mp hpm with rfl | ⟨hpmem, hpk⟩
        · dsimp only
          cases hg : hget (hdel c3.heap t) c.nextAddr with
          | none => rw [kvOf, hg] at hkv5a; simp at hkv5a
          | some e =>
            rw [kvOf, hg] at hkv5a
            simp only [Option.map_some', Option.some.injEq] at hkv5a
            have hek : e.key = k := by
              have h2 := congrArg Prod.fst hkv5a
              simpa using h2
            simp [hg, hek]
        · have hpt : p.2 ≠ t := by
            intro hpt
            have h2 := hmk p hpmem
            rw [hpt, het] at h2
            simp only [Option.map_some', Option.some.injEq] at h2
            exact hpkt (h2 ▸ rfl)
          have hpa2 : p.2 ≠ c.nextAddr := by
            intro hpa
            have h2 := hmk p hpmem
            rw [hpa, hget_eq_none_iff.mpr hfresh] at h2
            simp at h2
          rw [keyOf_eq_of_kvOf_eq (hkv5c p.2 hpt hpa2)]
          exact hmk p hpmem
      · intro b hb
        dsimp only
        rcases List.mem_cons.mp hb with rfl | hb2
        · cases hg : hget (hdel c3.heap t) c.nextAddr with
          | none => rw [kvOf, hg] at hkv5a; simp at hkv5a
          | some e =>
            rw [kvOf, hg] at hkv5a
            simp only [Option.map_some', Option.some.injEq] at hkv5a
            have hek : e.key = k := by
              have h2 := congrArg Prod.fst hkv5a
              simpa using h2
            simp only [hg, Option.some_bind]
            rw [hek, hm4get, if_neg (Ne.symm hktk), hmget, if_pos rfl]
        · have hbo : b ∈ o1 ++ [t] := List.mem_append_left _ hb2
          have hb_t : b ≠ t := fun h => hto1 (h ▸ hb2)
          have hb_a : b ≠ c.nextAddr := fun h => hfro (h ▸ hbo)
          have hokb := hok b hbo
          rw [bindKey_eq_of_kvOf_eq (m := m4) (hkv5c b hb_t hb_a)]
          cases he : hget c.heap b with
          | none => rw [he] at hokb; simp at hokb
          | some eb =>
            rw [he] at hokb
            simp only [Option.some_bind] at hokb ⊢
            have hkb : eb.key ≠ k := by
              intro hkb
              rw [hkb, hm] at hokb
              exact Option.noConfusion hokb
            have hkbt : eb.key ≠ et.key := by
              intro hkbt
              rw [hkbt, hokt] at hokb
              exact hb_t (Option.some.inj hokb).symm
            rw [hm4get, if_neg hkbt, hmget, if_neg hkb]
            exact hokb
      · dsimp only
        omega
      · dsimp only
        rw [hfr3, hfr1, hna3, hna1, keys_hdel, hkeys3e]
        have htka : t ∈ c.heap.map Prod.fst ++ [c.nextAddr] := by
          refine List.mem_append_left _ ?_
          rw [← hget_isSome_iff]
          simp [het]
        have ha2 : ([t] ++ (c.heap.map Prod.fst ++ [c.nextAddr]).erase t).Perm
            (c.heap.map Prod.fst ++ [c.nextAddr]) :=
          (List.perm_cons_erase htka).symm
        have ha3 : (c.freed ++ (c.heap.map Prod.fst ++ [c.nextAddr])).Perm
            (List.range (c.nextAddr + 1)) := by
          rw [List.range_succ, ← List.append_assoc]
          exact halloc.append_right _
        rw [List.append_assoc]
        exact (List.Perm.append_left _ ha2).trans ha3
      · dsimp only
        exact hm4nd
      · dsimp only
        simp only [List.length_cons]
        have hleno : (o1 ++ [t]).length = o1.length + 1 := by simp
        omega
    · dsimp only
      rw [hm4get, if_neg (Ne.symm hktk), hmget, if_pos rfl]
    · dsimp only
      rw [hm4get, if_pos rfl]
    · intro k2 hk2 hk2t
      dsimp only
      rw [hm4get, if_neg hk2t, hmget, if_neg hk2]
    · dsimp only
      exact hkv5a
    · intro b hb hba
      dsimp only
      exact hkv5c b hb hba
    · dsimp only
      exact hkv5t
    · dsimp only
      omega
    · dsimp only
      rw [hfr3, hfr1]
    · dsimp only
      rw [hna3, hna1]
    · dsimp only
      rw [hcap3, hcap1]

/-- `insert` into a capacity-0 cache is accepted but the freshly inserted
entry is evicted in the same step: the cache stays empty, its node is
allocated and freed within the single call. -/
theorem insert_spec_cap0 [DecidableEq K] {c : LruCache K V}
    {order : List Nat} {k : K} (v : V)
    (hr : Realizes c order) (hcap : c.capacity = 0) :
    ∃ c2,
      c.insert k v = some c2 ∧
      Realizes c2 [] ∧
      c2.cache = [] ∧
      c2.heap = [] ∧
      c2.freed = c.freed ++ [c.nextAddr] ∧
      c2.nextAddr = c.nextAddr + 1 ∧
      c2.capacity = c.capacity := by
  have hcache0 : c.cache = [] := by
    have h1 := hr.2.2.2.2.2.2.1
    rw [hcap] at h1
    exact List.length_eq_zero.mp (Nat.le_zero.mp h1)
  have hord : order = [] := by
    have h1 := hr.2.2.2.2.2.2.2.2.2
    rw [hcache0] at h1
    exact (List.length_eq_zero.mp h1.symm)
  subst hord
  have hm : mget c.cache k = none := by rw [hcache0]; rfl
  have hfresh := fresh_not_mem_keys hr
  have hcommon := insert_common hr k v
  rcases hcommon with ⟨c1, heq, hseg1, hhead1, htail1, hcache1, hcap1, hna1,
    hfr1, hkeys1, hkva, hkvb⟩
  obtain ⟨hseg, hhead, htail, hperm, hmk, hok, hlen, halloc, hnd, hlo⟩ := hr
  have hkeys0 : c.heap.map Prod.fst = [] := List.Perm.eq_nil hperm
  obtain ⟨m, hmins⟩ : ∃ m, minsert c1.cache k c.nextAddr = (none, m) :=
    ⟨(minsert c1.cache k c.nextAddr).2, by
      rw [Prod.ext_iff]
      exact ⟨by rw [minsert_fst, hcache1, hm], rfl⟩⟩
  have hmabs : m = [(k, c.nextAddr)] := by
    have h2 := minsert_absent (m := c1.cache) (k := k) (a := c.nextAddr)
      (by rw [hcache1]; exact hm)
    rw [hmins, hcache1, hcache0] at h2
    exact h2
  have hr3 := remove_entry_spec (c := { c1 with cache := m })
    [] [] (a := c.nextAddr)
    (by simpa using hseg1) (by simpa using hhead1) (by simpa using htail1)
    (by simp)
  rcases hr3 with ⟨c3, heq3, hseg3, hhead3, htail3, hshape3⟩
  obtain ⟨hcap3, hcache3, hna3, hfr3, hkeys3, hkv3⟩ := hshape3
  dsimp only at hcap3 hcache3 hna3 hfr3 hkeys3 hkv3
  have hkva3 : kvOf c3.heap c.nextAddr = some (k, v) := by
    rw [hkv3, hkva]
  cases he3 : hget c3.heap c.nextAddr with
  | none => rw [kvOf, he3] at hkva3; simp at hkva3
  | some e3 =>
    rw [kvOf, he3] at hkva3
    simp only [Option.map_some', Option.some.injEq] at hkva3
    have hek : e3.key = k := by
      have h2 := congrArg Prod.fst hkva3
      simpa using h2
    have hm4 : mremove m e3.key = (some c.nextAddr, []) := by
      rw [hmabs, hek]
      simp [mremove]
    have hkeys3e : c3.heap.map Prod.fst = [c.nextAddr] := by
      rw [hkeys3, hkeys1, hkeys0]
      rfl
    have hheap4 : hdel c3.heap c.nextAddr = [] := by
      have h2 : (hdel c3.heap c.nextAddr).map Prod.fst = [] := by
        rw [keys_hdel, hkeys3e]
        simp
      exact List.map_eq_nil_iff.mp h2
    have hfree : LruCache.free_entry { c3 with cache := ([] : List (K × Nat)) } c.nextAddr = some { c3 with cache := ([] : List (K × Nat)), heap := hdel c3.heap c.nextAddr, freed := c3.freed ++ [c.nextAddr] } := by
      simp [LruCache.free_entry, he3]
    refine ⟨{ c3 with cache := ([] : List (K × Nat)), heap := hdel c3.heap c.nextAddr, freed := c3.freed ++ [c.nextAddr] }, ?_, ?_, rfl, ?_, ?_, ?_, ?_⟩
    · rw [insert_unfold, heq]
      simp only [Option.some_bind]
      rw [hmins]
      dsimp only
      rw [if_pos (by rw [hcap1, hcap, hmabs]; simp : m.length > c1.capacity)]
      have htail1t : c1.tail = some c.nextAddr := htail1
      rw [htail1t]
      dsimp only
      rw [htail1t] at heq3
      rw [heq3]
      simp only [Option.some_bind]
      rw [he3]
      simp only [Option.some_bind]
      rw [hcache3, hm4]
      dsimp only
      exact hfree
    · refine ⟨rfl, ?_, ?_, ?_, ?_, ?_, ?_, ?_, ?_, ?_⟩
      · dsimp only
        simpa using hhead3
      · dsimp only
        simpa using htail3
      · dsimp only
        rw [hheap4]
        simp
      · intro p hp
        simp at hp
      · intro b hb
        simp at hb
      · simp
      · dsimp only
        rw [hfr3, hfr1, hna3, hna1, hheap4, List.range_succ]
        simp only [List.map_nil, List.append_nil]
        have h2 : c.freed.Perm (List.range c.nextAddr) := by
          have h3 := halloc
          rw [hkeys0, List.append_nil] at h3
          exact h3
        exact h2.append_right _
      · simp
      · simp
    · dsimp only
      exact hheap4
    · dsimp only
      rw [hfr3, hfr1]
    · dsimp only
      rw [hna3, hna1]
    · dsimp only
      rw [hcap3, hcap1]

/-! ## The empty cache, the drop traversal, and operation traces -/

theorem new_realizes (K V : Type) [DecidableEq K] (cap : Nat) :
    Realizes (LruCache.new K V cap) [] := by
  refine ⟨rfl, rfl, rfl, List.Perm.refl _, ?_, ?_, ?_, List.Perm.refl _,
    List.nodup_nil, rfl⟩
  · intro p hp
    simp [LruCache.new] at hp
  · intro a ha
    simp at ha
  · simp [LruCache.new]

/-- Walking `next` links from the head of a well-linked chain and freeing
each node visits exactly the chain, in order, freeing every live node
exactly once. -/
theorem dropLoop_chain :
    ∀ {order : List Nat} {h : List (Nat × Entry K V)} {p : Option Nat},
      segb h p order none = true → (h.map Prod.fst).Perm order → order.Nodup →
      dropLoop h (firstPtr order none) h.length = some order := by
  intro order
  induction order with
  | nil =>
    intro h p _ hperm _
    have h0 : h.map Prod.fst = [] := hperm.eq_nil
    have h1 : h = [] := List.map_eq_nil_iff.mp h0
    subst h1
    rfl
  | cons a rest ih =>
    intro h p hseg hperm hnd
    rcases segb_cons.mp hseg with ⟨e, he, _, hen, hrest⟩
    have hlen : h.length = rest.length + 1 := by
      have h1 : (h.map Prod.fst).length = (a :: rest).length := hperm.length_eq
      simpa using h1
    have haor : a ∉ rest := (List.nodup_cons.mp hnd).1
    have hndr : rest.Nodup := (List.nodup_cons.mp hnd).2
    have hkeysnd : (h.map Prod.fst).Nodup := hperm.symm.nodup hnd
    have hpermd : ((hdel h a).map Prod.fst).Perm rest := by
      rw [keys_hdel]
      refine List.Perm.trans (hperm.erase a) ?_
      rw [List.erase_cons_head]
    have hsegd : segb (hdel h a) (some a) rest none = true := by
      rw [segb_congr fun b hb => hget_hdel_ne fun hba => haor (by rw [← hba]; exact hb)]
      exact hrest
    have hlend : (hdel h a).length = rest.length := by
      have h1 : ((hdel h a).map Prod.fst).length = rest.length := hpermd.length_eq
      simpa using h1
    have hihd := ih hsegd hpermd hndr
    rw [hlend] at hihd
    simp only [firstPtr_cons, hlen, dropLoop, he]
    rw [hen, hihd]

/-- A single public operation of the cache, for whole-trace statements. -/
inductive Op (K V : Type) where
  | get (k : K)
  | insert (k : K) (v : V)
  | remove (k : K)

/-- Run one public operation, keeping only the cache state. -/
def runOp [DecidableEq K] (c : LruCache K V) : Op K V → Option (LruCache K V)
  | Op.get k => (c.get k).map Prod.fst
  | Op.insert k v => c.insert k v
  | Op.remove k => c.remove k

/-- Run a whole trace of public operations from `new capacity`. -/
def runOps [DecidableEq K] (cap : Nat) (ops : List (Op K V)) :
    Option (LruCache K V) :=
  ops.foldlM runOp (LruCache.new K V cap)

/-- Every public operation succeeds on a well-formed state and preserves
well-formedness and the capacity. -/
theorem runOp_wf [DecidableEq K] {c : LruCache K V} {order : List Nat}
    (hr : Realizes c order) (op : Op K V) :
    ∃ c2 order2, runOp c op = some c2 ∧ Realizes c2 order2 ∧
      c2.capacity = c.capacity := by
  cases op with
  | get k =>
    cases hm : mget c.cache k with
    | none =>
      refine ⟨c, order, ?_, hr, rfl⟩
      simp [runOp, get_spec_miss hm]
    | some a =>
      rcases get_spec_hit hr hm with ⟨l1, l2, c2, v, _, heq, hr2, _, _, _, _,
        hcap, _⟩
      refine ⟨c2, a :: (l1 ++ l2), ?_, hr2, hcap⟩
      simp [runOp, heq]
  | insert k v =>
    cases hm : mget c.cache k with
    | some old =>
      rcases insert_spec_replace v hr hm with ⟨l1, l2, c2, _, heq, hr2, _, _,
        _, _, _, _, _, hcap⟩
      exact ⟨c2, _, heq, hr2, hcap⟩
    | none =>
      by_cases hfit : c.cache.length + 1 ≤ c.capacity
      · rcases insert_spec_fresh v hr hm hfit with ⟨c2, heq, hr2, _, _, _, _,
          _, _, _, hcap⟩
        exact ⟨c2, _, heq, hr2, hcap⟩
      · have hfull : c.capacity < c.cache.length + 1 := by omega
        rcases List.eq_nil_or_concat order with rfl | ⟨o1, t, hord⟩
        · have hcap0 : c.capacity = 0 := by
            have h1 := hr.2.2.2.2.2.2.2.2.2
            simp only [List.length_nil] at h1
            omega
          rcases insert_spec_cap0 v hr hcap0 with ⟨c2, heq, hr2, _, _, _, _,
            hcap⟩
          exact ⟨c2, [], heq, hr2, hcap⟩
        · rw [List.concat_eq_append] at hord
          rcases insert_spec_evict v hr hm hfull hord with ⟨c2, et, _, _, _,
            heq, hr2, _, _, _, _, _, _, _, _, _, hcap⟩
          exact ⟨c2, _, heq, hr2, hcap⟩
  | remove k =>
    cases hm : mget c.cache k with
    | none =>
      refine ⟨c, order, ?_, hr, rfl⟩
      simp [runOp, remove_spec_miss hm]
    | some a =>
      rcases remove_spec_hit hr hm with ⟨l1, l2, c2, _, heq, hr2, _, _, _, _,
        _, hcap, _, _⟩
      refine ⟨c2, l1 ++ l2, ?_, hr2, hcap⟩
      simp [runOp, heq]

theorem foldRun_wf [DecidableEq K] :
    ∀ (ops : List (Op K V)) (c : LruCache K V) (order : List Nat),
      Realizes c order → ∀ c2, ops.foldlM runOp c = some c2 →
      ∃ order2, Realizes c2 order2 ∧ c2.capacity = c.capacity := by
  intro ops
  induction ops with
  | nil =>
    intro c order hr c2 hrun
    simp only [List.foldlM_nil] at hrun
    have h2 : some c = some c2 := hrun
    injection h2 with h3
    subst h3
    exact ⟨order, hr, rfl⟩
  | cons op ops ih =>
    intro c order hr c2 hrun
    rcases runOp_wf hr op with ⟨c1, order1, heq, hr1, hcap1⟩
    rw [List.foldlM_cons, heq] at hrun
    rcases ih c1 order1 hr1 c2 hrun with ⟨order2, hr2, hcap2⟩
    exact ⟨order2, hr2, hcap2.trans hcap1⟩

/-- Every state reachable by a trace of public operations from
`new capacity` is well-formed. -/
theorem runOps_wf [DecidableEq K] {cap : Nat} {ops : List (Op K V)}
    {c : LruCache K V} (hrun : runOps cap ops = some c) :
    ∃ order, Realizes c order ∧ c.capacity = cap :=
  foldRun_wf ops (LruCache.new K V cap) [] (new_realizes K V cap) c hrun

/-! ## Last-touch stamps: the recency list orders entries by last touch

To state that the back of the recency list is the least recently *touched*
entry (touched = hit by a `get` or created by an `insert`), we instrument a
trace with a stamp table mapping each live heap address to the index of the
operation that last touched it, and prove that the recency order is always
strictly decreasing in these stamps. -/

theorem segb_unique {h : List (Nat × Entry K V)} :
    ∀ {o o2 : List Nat} {p p2 : Option Nat},
      segb h p o none = true → segb h p2 o2 none = true →
      firstPtr o none = firstPtr o2 none → o = o2 := by
  intro o
  induction o with
  | nil =>
    intro o2 p p2 _ hs2 hf
    cases o2 with
    | nil => rfl
    | cons b rest2 => simp [firstPtr] at hf
  | cons a rest ih =>
    intro o2 p p2 hs hs2 hf
    cases o2 with
    | nil => simp [firstPtr] at hf
    | cons b rest2 =>
      simp only [firstPtr_cons, Option.some.injEq] at hf
      subst hf
      rcases segb_cons.mp hs with ⟨e, he, _, hen, hrest⟩
      rcases segb_cons.mp hs2 with ⟨e2, he2, _, hen2, hrest2⟩
      rw [he] at he2
      injection he2 with he2
      subst he2
      rw [ih hrest hrest2 (hen ▸ hen2 ▸ rfl)]

/-- The recency order realizing a cache state is unique. -/
theorem realizes_unique [DecidableEq K] {c : LruCache K V} {o o2 : List Nat}
    (hr : Realizes c o) (hr2 : Realizes c o2) : o = o2 :=
  segb_unique hr.1 hr2.1 (hr.2.1 ▸ hr2.2.1 ▸ rfl)

/-- Update the stamp table for one operation at step `i`: a `get` hit
re-stamps the address it touches, an `insert` stamps the address of the node
it allocates, everything else leaves the table unchanged. -/
def stampOp [DecidableEq K] (c : LruCache K V) (op : Op K V)
    (st : List (Nat × Nat)) (i : Nat) : List (Nat × Nat) :=
  match op with
  | Op.get k =>
    match mget c.cache k with
    | some a => (minsert st a i).2
    | none => st
  | Op.insert _ _ => (minsert st c.nextAddr i).2
  | Op.remove _ => st

/-- Run a trace keeping the stamp table alongside the cache state. -/
def runStamps [DecidableEq K] :
    LruCache K V → List (Nat × Nat) → Nat → List (Op K V) →
      Option (LruCache K V × List (Nat × Nat))
  | c, st, _, [] => some (c, st)
  | c, st, i, op :: ops =>
    match runOp c op with
    | none => none
    | some c2 => runStamps c2 (stampOp c op st i) (i + 1) ops

/-- The stamp table is consistent with a recency order at step `i`: every
listed address carries a stamp below `i`, and the order is strictly
decreasing in stamps (front = most recently touched). -/
def stampsOK (st : List (Nat × Nat)) (o : List Nat) (i : Nat) : Prop :=
  (∀ a ∈ o, ∃ s, mget st a = some s ∧ s < i) ∧
  o.Pairwise fun a b => ∀ sa sb, mget st a = some sa → mget st b = some sb →
    sb < sa

theorem stampsOK_mono {st : List (Nat × Nat)} {o : List Nat} {i : Nat}
    (h : stampsOK st o i) : stampsOK st o (i + 1) := by
  obtain ⟨hb, hp⟩ := h
  refine ⟨?_, hp⟩
  intro a ha
  rcases hb a ha with ⟨s, hs, hlt⟩
  exact ⟨s, hs, by omega⟩

theorem stampsOK_sublist {st : List (Nat × Nat)} {o o2 : List Nat} {i : Nat}
    (h : stampsOK st o i) (hsub : o2.Sublist o) : stampsOK st o2 i := by
  obtain ⟨hb, hp⟩ := h
  exact ⟨fun a ha => hb a (hsub.mem ha), hp.sublist hsub⟩

/-- Stamping a fresh front element with the current step keeps the table
consistent with the new order. -/
theorem stampsOK_push {st : List (Nat × Nat)} {o : List Nat} {i : Nat}
    (h : stampsOK st o i) {rest : List Nat} {x : Nat}
    (hsub : rest.Sublist o) (hx : x ∉ rest) :
    stampsOK (minsert st x i).2 (x :: rest) (i + 1) := by
  obtain ⟨hb, hp⟩ := h
  have hpres : ∀ b ∈ rest, mget (minsert st x i).2 b = mget st b := by
    intro b hbm
    rw [mget_minsert, if_neg (fun hbx => hx (by rw [← hbx]; exact hbm))]
  constructor
  · intro a ha
    rcases List.mem_cons.mp ha with rfl | ha2
    · refine ⟨i, ?_, by omega⟩
      rw [mget_minsert, if_pos rfl]
    · rcases hb a (hsub.mem ha2) with ⟨s, hs, hlt⟩
      refine ⟨s, ?_, by omega⟩
      rw [hpres a ha2]
      exact hs
  · rw [List.pairwise_cons]
    constructor
    · intro b hbm sa sb hsa hsb
      rw [mget_minsert, if_pos rfl] at hsa
      injection hsa with hsa
      subst hsa
      rw [hpres b hbm] at hsb
      rcases hb b (hsub.mem hbm) with ⟨s, hs, hlt⟩
      rw [hsb] at hs
      injection hs with hs
      omega
    · refine ((hp.sublist hsub).imp_of_mem ?_)
      intro a b ham hbm hR sa sb hsa hsb
      rw [hpres a ham] at hsa
      rw [hpres b hbm] at hsb
      exact hR sa sb hsa hsb

/-- One step: every operation preserves well-formedness together with the
stamp consistency of the recency order. -/
theorem stamp_step [DecidableEq K] {c : LruCache K V} {o : List Nat}
    {st : List (Nat × Nat)} {i : Nat}
    (hr : Realizes c o) (hst : stampsOK st o i) (op : Op K V) :
    ∃ c2 o2, runOp c op = some c2 ∧ Realizes c2 o2 ∧
      stampsOK (stampOp c op st i) o2 (i + 1) ∧ c2.capacity = c.capacity := by
  have hndo := realizes_order_nodup hr
  have hfro := fresh_not_mem_order hr
  cases op with
  | get k =>
    cases hm : mget c.cache k with
    | none =>
      refine ⟨c, o, ?_, hr, ?_, rfl⟩
      · simp [runOp, get_spec_miss hm]
      · rw [show stampOp c (Op.get k) st i = st from by simp [stampOp, hm]]
        exact stampsOK_mono hst
    | some a =>
      rcases get_spec_hit hr hm with ⟨l1, l2, c2, v, hord, heq, hr2, _, _, _,
        _, hcap, _⟩
      subst hord
      have hsub : (l1 ++ l2).Sublist (l1 ++ a :: l2) :=
        List.Sublist.append_left (List.sublist_cons_self a l2) l1
      have hx : a ∉ l1 ++ l2 := by
        rcases List.nodup_append.mp hndo with ⟨_, h2, h3⟩
        intro hmem
        rcases List.mem_append.mp hmem with hmem | hmem
        · exact h3 hmem (List.mem_cons_self _ _)
        · exact (List.nodup_cons.mp h2).1 hmem
      refine ⟨c2, a :: (l1 ++ l2), ?_, hr2, ?_, hcap⟩
      · simp [runOp, heq]
      · rw [show stampOp c (Op.get k) st i = (minsert st a i).2 from by
          simp [stampOp, hm]]
        exact stampsOK_push hst hsub hx
  | insert k v =>
    rw [show stampOp c (Op.insert k v) st i = (minsert st c.nextAddr i).2
      from rfl]
    cases hm : mget c.cache k with
    | some old =>
      rcases insert_spec_replace v hr hm with ⟨l1, l2, c2, hord, heq, hr2, _,
        _, _, _, _, _, _, hcap⟩
      subst hord
      have hsub : (l1 ++ l2).Sublist (l1 ++ old :: l2) :=
        List.Sublist.append_left (List.sublist_cons_self old l2) l1
      have hx : c.nextAddr ∉ l1 ++ l2 := fun hmem => hfro (hsub.mem hmem)
      exact ⟨c2, _, heq, hr2, stampsOK_push hst hsub hx, hcap⟩
    | none =>
      by_cases hfit : c.cache.length + 1 ≤ c.capacity
      · rcases insert_spec_fresh v hr hm hfit with ⟨c2, heq, hr2, _, _, _, _,
          _, _, _, hcap⟩
        exact ⟨c2, _, heq, hr2,
          stampsOK_push hst (List.Sublist.refl o) hfro, hcap⟩
      · have hfull : c.capacity < c.cache.length + 1 := by omega
        rcases List.eq_nil_or_concat o with rfl | ⟨o1, t, hord⟩
        · have hcap0 : c.capacity = 0 := by
            have h1 := hr.2.2.2.2.2.2.2.2.2
            simp only [List.length_nil] at h1
            omega
          rcases insert_spec_cap0 v hr hcap0 with ⟨c2, heq, hr2, _, _, _, _,
            hcap⟩
          refine ⟨c2, [], heq, hr2, ?_, hcap⟩
          exact ⟨fun a ha => absurd ha (List.not_mem_nil a), List.Pairwise.nil⟩
        · rw [List.concat_eq_append] at hord
          subst hord
          rcases insert_spec_evict v hr hm hfull rfl with ⟨c2, et, _, _, _,
            heq, hr2, _, _, _, _, _, _, _, _, _, hcap⟩
          have hsub : o1.Sublist (o1 ++ [t]) := List.sublist_append_left _ _
          have hx : c.nextAddr ∉ o1 := fun hmem => hfro (hsub.mem hmem)
          exact ⟨c2, _, heq, hr2, stampsOK_push hst hsub hx, hcap⟩
  | remove k =>
    rw [show stampOp c (Op.remove k) st i = st from rfl]
    cases hm : mget c.cache k with
    | none =>
      refine ⟨c, o, ?_, hr, stampsOK_mono hst, rfl⟩
      simp [runOp, remove_spec_miss hm]
    | some a =>
      rcases remove_spec_hit hr hm with ⟨l1, l2, c2, hord, heq, hr2, _, _, _,
        _, _, hcap, _, _⟩
      subst hord
      have hsub : (l1 ++ l2).Sublist (l1 ++ a :: l2) :=
        List.Sublist.append_left (List.sublist_cons_self a l2) l1
      refine ⟨c2, l1 ++ l2, ?_, hr2, stampsOK_mono (stampsOK_sublist hst hsub),
        hcap⟩
      simp [runOp, heq]

/-- Any state reached by a stamped trace is well-formed with a recency order
sorted by last-touch stamps. -/
theorem runStamps_inv [DecidableEq K] :
    ∀ (ops : List (Op K V)) (c : LruCache K V) (o : List Nat)
      (st : List (Nat × Nat)) (i : Nat),
      Realizes c o → stampsOK st o i →
      ∀ c2 st2, runStamps c st i ops = some (c2, st2) →
      ∃ o2, Realizes c2 o2 ∧ stampsOK st2 o2 (i + ops.length) := by
  intro ops
  induction ops with
  | nil =>
    intro c o st i hr hst c2 st2 hrun
    simp only [runStamps] at hrun
    injection hrun with hrun
    obtain ⟨h1, h2⟩ := Prod.mk.injEq .. ▸ hrun
    subst h1
    subst h2
    exact ⟨o, hr, by simpa using hst⟩
  | cons op ops ih =>
    intro c o st i hr hst c2 st2 hrun
    rcases stamp_step hr hst op with ⟨c1, o1, heq, hr1, hst1, _⟩
    rw [runStamps, heq] at hrun
    rcases ih c1 o1 (stampOp c op st i) (i + 1) hr1 hst1 c2 st2 hrun
      with ⟨o2, hr2, hst2⟩
    refine ⟨o2, hr2, ?_⟩
    have : i + 1 + ops.length = i + (op :: ops).length := by
      simp [List.length_cons]
      omega
    rw [← this]
    exact hst2

/-- The stamped run is the ordinary trace semantics with a ghost stamp
table: the cache component evolves exactly as under `runOp`. -/
theorem runStamps_runOps [DecidableEq K] :
    ∀ (ops : List (Op K V)) (c : LruCache K V) (st : List (Nat × Nat))
      (i : Nat) (c2 : LruCache K V) (st2 : List (Nat × Nat)),
      runStamps c st i ops = some (c2, st2) →
      ops.foldlM runOp c = some c2 := by
  intro ops
  induction ops with
  | nil =>
    intro c st i c2 st2 hrun
    simp only [runStamps] at hrun
    injection hrun with hrun
    obtain ⟨h1, _⟩ := Prod.mk.injEq .. ▸ hrun
    rw [List.foldlM_nil, h1]
    rfl
  | cons op ops ih =>
    intro c st i c2 st2 hrun
    rw [runStamps] at hrun
    cases heq : runOp c op with
    | none => rw [heq] at hrun; exact Option.noConfusion hrun
    | some c1 =>
      rw [heq] at hrun
      rw [List.foldlM_cons, heq]
      exact ih c1 (stampOp c op st i) (i + 1) c2 st2 hrun

/-! ## Claim theorems -/

instance decRealizes [DecidableEq K] (c : LruCache K V) (o : List Nat) :
    Decidable (Realizes c o) := by
  unfold Realizes
  infer_instance

/-- Example caches used to witness the claim theorems on concrete inputs. -/
def w0 : LruCache Nat Nat := LruCache.new Nat Nat 2

def w1 : LruCache Nat Nat := (w0.insert 1 10).getD w0

def w2 : LruCache Nat Nat := (w1.insert 2 20).getD w1

def wz : LruCache Nat Nat := LruCache.new Nat Nat 0

def wops : List (Op Nat Nat) :=
  [Op.insert 1 10, Op.insert 2 20, Op.get 1, Op.insert 3 30, Op.remove 2]

def wc : LruCache Nat Nat := (runOps 2 wops).getD w0

/-- C1: on any reachable cache, inserting a fresh key past capacity evicts
exactly the entry at the back of the recency list (the one `tail` points
to), and that entry is the least recently touched among all tracked keys:
every other tracked entry carries a strictly later last-touch stamp (the
index of the last `get` hit or `insert` that touched it).  The evicted key
is removed from the index, its node from the recency list and the heap, and
its storage is released; every other key keeps its binding, the count is
unchanged, and exactly one node is freed, so eviction fires at most once
per insertion. -/
theorem C1_eviction [DecidableEq K] {n : Nat} {l : List (Op K V)}
    {c : LruCache K V} {st : List (Nat × Nat)}
    (hrun : runStamps (LruCache.new K V n) [] 0 l = some (c, st))
    {o o1 : List Nat} {t : Nat} {k : K} (v : V)
    (hr : Realizes c o) (hm : mget c.cache k = none)
    (hfull : c.capacity < c.cache.length + 1)
    (hord : o = o1 ++ [t]) :
    c.tail = some t ∧
    (∀ b ∈ o1, ∃ sb s2, mget st b = some sb ∧ mget st t = some s2 ∧
      s2 < sb) ∧
    ∃ c2 et,
      hget c.heap t = some et ∧
      mget c.cache et.key = some t ∧
      et.key ≠ k ∧
      c.insert k v = some c2 ∧
      Realizes c2 (c.nextAddr :: o1) ∧
      mget c2.cache et.key = none ∧
      kvOf c2.heap t = none ∧
      (∀ k2, k2 ≠ k → k2 ≠ et.key → mget c2.cache k2 = mget c.cache k2) ∧
      c2.cache.length = c.cache.length ∧
      c2.freed = c.freed ++ [t] := by
  refine ⟨?_, ?_, ?_⟩
  · rw [hr.2.2.1, hord]
    exact lastPtr_concat
  · have hst0 : stampsOK [] ([] : List Nat) 0 :=
      ⟨fun a ha => absurd ha (List.not_mem_nil a), List.Pairwise.nil⟩
    rcases runStamps_inv l (LruCache.new K V n) [] [] 0
      (new_realizes K V n) hst0 c st hrun with ⟨o2, hr2, hst2⟩
    have ho2 : o2 = o := realizes_unique hr2 hr
    subst ho2
    rw [hord] at hst2
    obtain ⟨hb, hp⟩ := hst2
    rcases List.pairwise_append.mp hp with ⟨_, _, hcross⟩
    intro b hbm
    have htm : t ∈ o1 ++ [t] :=
      List.mem_append_right _ (List.mem_cons_self _ _)
    rcases hb b (List.mem_append_left _ hbm) with ⟨sb, hsb, _⟩
    rcases hb t htm with ⟨s2, hs2, _⟩
    exact ⟨sb, s2, hsb, hs2,
      hcross b hbm t (List.mem_cons_self _ _) sb s2 hsb hs2⟩
  · rcases insert_spec_evict v hr hm hfull hord with ⟨c2, et, h1, h2, h3, h4,
      h5, _, h6, h7, _, _, h8, h9, h10, _, _⟩
    exact ⟨c2, et, h1, h2, h3, h4, h5, h6, h8, h7, h9, h10⟩

def wsops : List (Op Nat Nat) := [Op.insert 1 10, Op.insert 2 20]

def wrs : LruCache Nat Nat × List (Nat × Nat) :=
  (runStamps (LruCache.new Nat Nat 2) [] 0 wsops).getD
    (LruCache.new Nat Nat 2, [])

theorem C1_eviction_witness :
    wrs.1.tail = some 0 ∧
    (∀ b ∈ [1], ∃ sb s2, mget wrs.2 b = some sb ∧ mget wrs.2 0 = some s2 ∧
      s2 < sb) ∧
    ∃ c2 et,
      hget wrs.1.heap 0 = some et ∧
      mget wrs.1.cache et.key = some 0 ∧
      et.key ≠ 3 ∧
      wrs.1.insert 3 30 = some c2 ∧
      Realizes c2 (wrs.1.nextAddr :: [1]) ∧
      mget c2.cache et.key = none ∧
      kvOf c2.heap 0 = none ∧
      (∀ k2, k2 ≠ 3 → k2 ≠ et.key → mget c2.cache k2 = mget wrs.1.cache k2) ∧
      c2.cache.length = wrs.1.cache.length ∧
      c2.freed = wrs.1.freed ++ [0] :=
  C1_eviction (o := [1, 0])
    (by decide : runStamps (LruCache.new Nat Nat 2) [] 0 wsops = some wrs)
    30
    (by decide : Realizes wrs.1 [1, 0])
    (by decide : mget wrs.1.cache 3 = none)
    (by decide : wrs.1.capacity < wrs.1.cache.length + 1)
    (by decide : ([1, 0] : List Nat) = [1] ++ [0])

/-- C2: after any trace of public operations from `new capacity`, `len`
equals the number of distinct keys tracked (the index keys are distinct and
`len` is their count), never exceeds the capacity, and is always 0 when the
capacity is 0. -/
theorem C2_len_invariant [DecidableEq K] {n : Nat} {l : List (Op K V)}
    {c : LruCache K V} (hrun : runOps n l = some c) :
    c.len = (c.cache.map Prod.fst).length ∧
    (c.cache.map Prod.fst).Nodup ∧
    c.len ≤ n ∧
    (n = 0 → c.len = 0) := by
  rcases runOps_wf hrun with ⟨o, hr, hcap⟩
  obtain ⟨_, _, _, _, _, _, hlen, _, hnd, _⟩ := hr
  refine ⟨(List.length_map _ _).symm, hnd, ?_, ?_⟩
  · rw [LruCache.len, ← hcap]
    exact hlen
  · intro h0
    rw [LruCache.len]
    omega

theorem C2_len_invariant_witness :
    wc.len = (wc.cache.map Prod.fst).length ∧
    (wc.cache.map Prod.fst).Nodup ∧
    wc.len ≤ 2 ∧
    (2 = 0 → wc.len = 0) :=
  C2_len_invariant (l := wops) (by decide)

/-- C3: inserting an already-present key replaces that key's value, resets
its recency to the front of the list, leaves `len` unchanged and evicts no
third key — every other key keeps exactly its old binding — even when the
cache is at capacity. -/
theorem C3_replace [DecidableEq K] {c : LruCache K V} {o : List Nat}
    {k : K} {old : Nat} (v : V)
    (hr : Realizes c o) (hm : mget c.cache k = some old) :
    ∃ l1 l2 c2,
      o = l1 ++ old :: l2 ∧
      c.insert k v = some c2 ∧
      Realizes c2 (c.nextAddr :: (l1 ++ l2)) ∧
      mget c2.cache k = some c.nextAddr ∧
      kvOf c2.heap c.nextAddr = some (k, v) ∧
      (∀ k2, k2 ≠ k → mget c2.cache k2 = mget c.cache k2) ∧
      c2.cache.length = c.cache.length ∧
      c2.freed = c.freed ++ [old] := by
  rcases insert_spec_replace v hr hm with ⟨l1, l2, c2, h1, h2, h3, h4, h5, h6,
    _, h7, h8, _, _⟩
  exact ⟨l1, l2, c2, h1, h2, h3, h4, h6, h5, h7, h8⟩

theorem C3_replace_witness :
    ∃ l1 l2 c2,
      ([1, 0] : List Nat) = l1 ++ 0 :: l2 ∧
      w2.insert 1 99 = some c2 ∧
      Realizes c2 (w2.nextAddr :: (l1 ++ l2)) ∧
      mget c2.cache 1 = some w2.nextAddr ∧
      kvOf c2.heap w2.nextAddr = some (1, 99) ∧
      (∀ k2, k2 ≠ 1 → mget c2.cache k2 = mget w2.cache k2) ∧
      c2.cache.length = w2.cache.length ∧
      c2.freed = w2.freed ++ [0] :=
  C3_replace (o := [1, 0]) 99 (by decide) (by decide)

/-- C4: `get` of a present key moves that key's entry to the front of the
recency list and returns its stored value, while the index, the allocation
state and every entry's key and value are untouched; `get` of an absent key
returns the miss and leaves the cache state literally unchanged. -/
theorem C4_get [DecidableEq K] {c : LruCache K V} {o : List Nat}
    (hr : Realizes c o) (k : K) :
    (mget c.cache k = none → c.get k = some (c, none)) ∧
    (∀ a, mget c.cache k = some a →
      ∃ l1 l2 c2 v,
        o = l1 ++ a :: l2 ∧
        c.get k = some (c2, some v) ∧
        Realizes c2 (a :: (l1 ++ l2)) ∧
        kvOf c.heap a = some (k, v) ∧
        c2.cache = c.cache ∧
        c2.freed = c.freed ∧
        c2.nextAddr = c.nextAddr ∧
        (∀ b, kvOf c2.heap b = kvOf c.heap b)) := by
  refine ⟨fun hm => get_spec_miss hm, fun a hm => ?_⟩
  rcases get_spec_hit hr hm with ⟨l1, l2, c2, v, h1, h2, h3, h4, h5, h6, h7,
    _, h8⟩
  exact ⟨l1, l2, c2, v, h1, h2, h3, h4, h5, h6, h7, h8⟩

theorem C4_get_witness :
    (mget w2.cache 1 = none → w2.get 1 = some (w2, none)) ∧
    (∀ a, mget w2.cache 1 = some a →
      ∃ l1 l2 c2 v,
        ([1, 0] : List Nat) = l1 ++ a :: l2 ∧
        w2.get 1 = some (c2, some v) ∧
        Realizes c2 (a :: (l1 ++ l2)) ∧
        kvOf w2.heap a = some (1, v) ∧
        c2.cache = w2.cache ∧
        c2.freed = w2.freed ∧
        c2.nextAddr = w2.nextAddr ∧
        (∀ b, kvOf c2.heap b = kvOf w2.heap b)) :=
  C4_get (o := [1, 0]) (by decide) 1

/-- C5: inserting into a capacity-0 cache succeeds but leaves the cache
empty: immediately afterwards `len` is 0 and a `get` of that key misses
without changing the state. -/
theorem C5_cap0 [DecidableEq K] {c : LruCache K V} {o : List Nat}
    (hr : Realizes c o) (hcap : c.capacity = 0) (k : K) (v : V) :
    ∃ c2,
      c.insert k v = some c2 ∧
      c2.len = 0 ∧
      c2.get k = some (c2, none) := by
  rcases insert_spec_cap0 v hr hcap with ⟨c2, heq, _, hcache, _, _, _, _⟩
  refine ⟨c2, heq, ?_, ?_⟩
  · rw [LruCache.len, hcache]
    rfl
  · refine get_spec_miss ?_
    rw [hcache]
    rfl

theorem C5_cap0_witness :
    ∃ c2,
      wz.insert 7 70 = some c2 ∧
      c2.len = 0 ∧
      c2.get 7 = some (c2, none) :=
  C5_cap0 (o := []) (by decide) (by decide) 7 70

/-- C6: every cache state reachable by a trace of public operations is
well-formed: some address list `o` realizes it, meaning the `next`
links from `head` traverse exactly the entries mapped by the index, once
each, ending at `tail`, the `prev` links mirror them (the front entry's
`prev` and the back entry's `next` are null), every entry's stored key is
bound to it in the index and vice versa, and the count never exceeds the
capacity. -/
theorem C6_invariant [DecidableEq K] {n : Nat} {l : List (Op K V)}
    {c : LruCache K V} (hrun : runOps n l = some c) :
    ∃ o, Realizes c o := by
  rcases runOps_wf hrun with ⟨o, hr, _⟩
  exact ⟨o, hr⟩

theorem C6_invariant_witness : ∃ o, Realizes wc o :=
  C6_invariant (n := 2) (l := wops) (by decide)

/-- C7: `remove` of a present key deletes exactly that key's entry from the
index, the recency list and the heap — `len` drops by one, its key then
misses, and every other entry keeps its key, value and relative o —
while `remove` of an absent key is a no-op returning the state unchanged. -/
theorem C7_remove [DecidableEq K] {c : LruCache K V} {o : List Nat}
    (hr : Realizes c o) (k : K) :
    (mget c.cache k = none → c.remove k = some c) ∧
    (∀ a, mget c.cache k = some a →
      ∃ l1 l2 c2,
        o = l1 ++ a :: l2 ∧
        c.remove k = some c2 ∧
        Realizes c2 (l1 ++ l2) ∧
        mget c2.cache k = none ∧
        (∀ k2, k2 ≠ k → mget c2.cache k2 = mget c.cache k2) ∧
        c2.cache.length + 1 = c.cache.length ∧
        c2.freed = c.freed ++ [a] ∧
        (∀ b, b ≠ a → kvOf c2.heap b = kvOf c.heap b) ∧
        kvOf c2.heap a = none) := by
  refine ⟨fun hm => remove_spec_miss hm, fun a hm => ?_⟩
  rcases remove_spec_hit hr hm with ⟨l1, l2, c2, h1, h2, h3, h4, h5, h6, h7,
    _, _, h8, h9⟩
  exact ⟨l1, l2, c2, h1, h2, h3, h4, h5, h6, h7, h8, h9⟩

theorem C7_remove_witness :
    (mget w2.cache 1 = none → w2.remove 1 = some w2) ∧
    (∀ a, mget w2.cache 1 = some a →
      ∃ l1 l2 c2,
        ([1, 0] : List Nat) = l1 ++ a :: l2 ∧
        w2.remove 1 = some c2 ∧
        Realizes c2 (l1 ++ l2) ∧
        mget c2.cache 1 = none ∧
        (∀ k2, k2 ≠ 1 → mget c2.cache k2 = mget w2.cache k2) ∧
        c2.cache.length + 1 = w2.cache.length ∧
        c2.freed = w2.freed ++ [a] ∧
        (∀ b, b ≠ a → kvOf c2.heap b = kvOf w2.heap b) ∧
        kvOf c2.heap a = none) :=
  C7_remove (o := [1, 0]) (by decide) 1

/-- C8: no operation has a fallible outcome on a well-formed cache:
`insert` always succeeds for every key and value (capacity is enforced only
through eviction), and `get`/`remove` always return (a miss of an absent key
is an ordinary result, not an error); no operation reaches a failing
dereference. -/
theorem C8_no_failure [DecidableEq K] {c : LruCache K V} {o : List Nat}
    (hr : Realizes c o) :
    (∀ k v, (c.insert k v).isSome) ∧
    (∀ k, (c.get k).isSome) ∧
    (∀ k, (c.remove k).isSome) := by
  refine ⟨fun k v => ?_, fun k => ?_, fun k => ?_⟩
  · rcases runOp_wf hr (Op.insert k v) with ⟨c2, _, heq, _, _⟩
    simp only [runOp] at heq
    simp [heq]
  · rcases runOp_wf hr (Op.get k) with ⟨c2, _, heq, _, _⟩
    simp only [runOp] at heq
    cases hg : c.get k
    · rw [hg] at heq; simp at heq
    · simp
  · rcases runOp_wf hr (Op.remove k) with ⟨c2, _, heq, _, _⟩
    simp only [runOp] at heq
    simp [heq]

theorem C8_no_failure_witness :
    (∀ k v, (w2.insert k v).isSome) ∧
    (∀ k, (w2.get k).isSome) ∧
    (∀ k, (w2.remove k).isSome) :=
  C8_no_failure (o := [1, 0]) (by decide)

/-- C9: on a well-formed cache the drop traversal walks the recency list
from `head` following `next` links and releases exactly the live entries,
each exactly once; together with the addresses already released during the
cache's lifetime this accounts for every allocated address exactly once —
no leaks, no double releases, regardless of how many entries remain. -/
theorem C9_release_exactly_once [DecidableEq K] {c : LruCache K V}
    {o : List Nat} (hr : Realizes c o) :
    c.dropFrees = some o ∧
    (c.freed ++ o).Nodup ∧
    (c.freed ++ o).Perm (List.range c.nextAddr) := by
  have hndo := realizes_order_nodup hr
  obtain ⟨hseg, hhead, _, hperm, _, _, _, halloc, _, _⟩ := hr
  have hperm2 : (c.freed ++ o).Perm (List.range c.nextAddr) :=
    ((List.Perm.append_left c.freed hperm).symm).trans halloc
  refine ⟨?_, hperm2.symm.nodup (List.nodup_range _), hperm2⟩
  rw [LruCache.dropFrees, hhead]
  exact dropLoop_chain hseg hperm hndo

theorem C9_release_exactly_once_witness :
    w2.dropFrees = some [1, 0] ∧
    (w2.freed ++ [1, 0]).Nodup ∧
    (w2.freed ++ [1, 0]).Perm (List.range w2.nextAddr) :=
  C9_release_exactly_once (o := [1, 0]) (by decide)

/-- C10: with capacity at least 1, a `get` performed immediately after
`insert k v` returns exactly `v`: the freshly inserted entry is never the
one evicted by its own insertion. -/
theorem C10_insert_then_get [DecidableEq K] {c : LruCache K V}
    {o : List Nat} (hr : Realizes c o) (hcap : 1 ≤ c.capacity)
    (k : K) (v : V) :
    ∃ c2 c3, c.insert k v = some c2 ∧ c2.get k = some (c3, some v) := by
  have hmain : ∃ c2 order2, c.insert k v = some c2 ∧ Realizes c2 order2 ∧
      mget c2.cache k = some c.nextAddr ∧
      kvOf c2.heap c.nextAddr = some (k, v) := by
    cases hm : mget c.cache k with
    | some old =>
      rcases insert_spec_replace v hr hm with ⟨l1, l2, c2, _, heq, hr2, hg,
        _, hkv, _, _, _, _, _⟩
      exact ⟨c2, _, heq, hr2, hg, hkv⟩
    | none =>
      by_cases hfit : c.cache.length + 1 ≤ c.capacity
      · rcases insert_spec_fresh v hr hm hfit with ⟨c2, heq, hr2, hg, _, hkv,
          _, _, _, _, _⟩
        exact ⟨c2, _, heq, hr2, hg, hkv⟩
      · have hfull : c.capacity < c.cache.length + 1 := by omega
        rcases List.eq_nil_or_concat o with rfl | ⟨o1, t, hord⟩
        · exfalso
          have h1 := hr.2.2.2.2.2.2.2.2.2
          simp only [List.length_nil] at h1
          omega
        · rw [List.concat_eq_append] at hord
          rcases insert_spec_evict v hr hm hfull hord with ⟨c2, et, _, _, _,
            heq, hr2, hg, _, _, hkv, _, _, _, _, _, _⟩
          exact ⟨c2, _, heq, hr2, hg, hkv⟩
  rcases hmain with ⟨c2, order2, heq, hr2, hg, hkv⟩
  rcases get_spec_hit hr2 hg with ⟨l1, l2, c3, v2, _, heqg, _, hkv2, _, _, _,
    _, _⟩
  have hv2 : v2 = v := by
    rw [hkv] at hkv2
    have h2 := congrArg Prod.snd (Option.some.inj hkv2)
    simpa using h2.symm
  subst hv2
  exact ⟨c2, c3, heq, heqg⟩

theorem C10_insert_then_get_witness :
    ∃ c2 c3, w2.insert 3 30 = some c2 ∧ c2.get 3 = some (c3, some 30) :=
  C10_insert_then_get (o := [1, 0]) (by decide) (by decide) 3 30

end LRU
